import Mathlib

/-!
Verification of the PySudoku repository: a shallow embedding of its data
model (cells, 9x9 boards), the CNF literal encodings, the rules/instance
translators, the result decoder, the minimizer loop, the backtracking
board filler and the public API error paths, together with theorems that
settle the specification claims about them.

Source layout: the repository ships two generations of the core.
`src/sudoku/translators.py` uses a fixed arithmetic coordinate<->literal
encoding, while `src/PySudoku/model/sudoku/translators.py` draws the
cell->literal table from a shuffled permutation of [1, 729].  Both are
embedded below where a claim cites them.
-/

namespace PySudoku

/-! ## Cell (src/PySudoku/model/sudoku/board.py, class Cell)

A `Cell` carries a value together with its (row, col) position.
`Cell.__eq__` compares only the coordinates. -/

structure Cell where
  value : ℕ
  row : ℕ
  col : ℕ
  deriving DecidableEq, Repr

/-- Embedding of `Cell.__eq__`: `self.row == other.row and self.col == other.col`. -/
def cellEq (a b : Cell) : Bool :=
  a.row == b.row && a.col == b.col

/-! ## Literal encoding of `src/sudoku/translators.py`

`CnfTranslator._coord_to_literal` (lines 70-84):
```
col_coefficent = VALUE_RANGE[1]              -- 9
row_coefficent = col_coefficent * N_COLS     -- 81
return value + col_coefficent * col + row_coefficent * row + 1
```
`ResultTranslator._literal_to_coord` (lines 255-273) inverts it with
integer division. -/

def coord_to_literal (row col value : ℕ) : ℕ :=
  value + 9 * col + 81 * row + 1

/-- Embedding of `ResultTranslator._literal_to_coord`.  The Python code
mutates `literal -= 1` first and then extracts row, col, value. -/
def literal_to_coord (literal : ℕ) : ℕ × ℕ × ℕ :=
  let l := literal - 1
  let row := l / 81
  let col := (l - row * 81) / 9
  let value := l - col * 9 - row * 81
  (row, col, value)

/-- The same coordinate-to-literal map, packaged on `Fin` triples with its
codomain `Fin 729` (the literal minus 1 lands in `[0, 729)`). -/
def coordLiteralFin (t : Fin 9 × Fin 9 × Fin 9) : Fin 729 :=
  ⟨t.2.2.val + 9 * t.2.1.val + 81 * t.1.val, by omega⟩

/-! ## Errors (src/PySudoku/sudoku/utils.py) -/

inductive PyErr
  | invalidCellValue
  | noSolution
  | invalidDifficulty
  | invalidMatrix
  deriving DecidableEq, Repr

/-! ## Python string operations, ASCII fragment

`Sudoku.generate` looks the difficulty name up with
`_Difficulty[difficulty.title()]`.  Characters are modelled by their
codepoints; `lower`, `upper` and alphabetic-ness follow Python's behaviour
on the ASCII range (the difficulty names are ASCII). -/

def pyToLowerChar (c : ℕ) : ℕ := if 65 ≤ c ∧ c ≤ 90 then c + 32 else c

def pyToUpperChar (c : ℕ) : ℕ := if 97 ≤ c ∧ c ≤ 122 then c - 32 else c

def pyIsAlpha (c : ℕ) : Bool := (65 ≤ c && c ≤ 90) || (97 ≤ c && c ≤ 122)

/-- Embedding of `str.lower()`. -/
def pyLower (s : List ℕ) : List ℕ := s.map pyToLowerChar

/-- One character of `str.title()`: an alphabetic character is uppercased
when the previous character was not alphabetic, lowercased otherwise;
other characters pass through. -/
def pyTitleChar (prev : Bool) (c : ℕ) : ℕ :=
  if pyIsAlpha c then cond prev (pyToLowerChar c) (pyToUpperChar c) else c

/-- `str.title()`, threading whether the previous character was alphabetic. -/
def pyTitleGo : Bool → List ℕ → List ℕ
  | _, [] => []
  | prev, c :: cs => pyTitleChar prev c :: pyTitleGo (pyIsAlpha c) cs

/-- Embedding of `str.title()`. -/
def pyTitle (s : List ℕ) : List ℕ := pyTitleGo false s

/-! ## Difficulty (src/PySudoku/model/sudoku/generator.py, lines 7-13) -/

inductive Difficulty
  | Easy
  | Medium
  | Hard
  | Extreme
  deriving DecidableEq, Repr

/-- The `IntEnum` value attached to each difficulty level. -/
def Difficulty.multiplier : Difficulty → ℕ
  | .Easy => 4
  | .Medium => 3
  | .Hard => 2
  | .Extreme => 1

/-- The Python enum member names, as codepoint lists
(`Easy`, `Medium`, `Hard`, `Extreme`). -/
def difficultyName : Difficulty → List ℕ
  | .Easy => [69, 97, 115, 121]
  | .Medium => [77, 101, 100, 105, 117, 109]
  | .Hard => [72, 97, 114, 100]
  | .Extreme => [69, 120, 116, 114, 101, 109, 101]

/-- Embedding of the lookup `_Difficulty[difficulty.title()]` in
`Sudoku.generate` (src/PySudoku/model/sudoku/__init__.py lines 33-38):
a `KeyError` is re-raised as `InvalidDifficultyError`. -/
def parseDifficulty (s : List ℕ) : Except PyErr Difficulty :=
  let t := pyTitle s
  if t = difficultyName .Easy then .ok .Easy
  else if t = difficultyName .Medium then .ok .Medium
  else if t = difficultyName .Hard then .ok .Hard
  else if t = difficultyName .Extreme then .ok .Extreme
  else .error .invalidDifficulty

/-! ## Board construction and the public solve path

`Board.from_matrix` (board.py lines 78-94) writes every matrix entry into
the corresponding cell; `Cell.value`'s setter (lines 39-55) raises
`InvalidCellValueError` unless the value lies in `[0, 9]`.  Matrices are
9x9 grids of Python ints, modelled as `Fin 9 → Fin 9 → ℤ`. -/

abbrev Mat := Fin 9 → Fin 9 → ℤ

/-- Embedding of the `Cell.value` setter's range check. -/
def cellValueSet (v : ℤ) : Except PyErr ℤ :=
  if v < 0 ∨ 9 < v then .error .invalidCellValue else .ok v

/-- Row-major enumeration of all cell coordinates, as `from_matrix`'s two
nested loops visit them. -/
def rowMajorIdx : List (Fin 9 × Fin 9) :=
  (List.finRange 9).flatMap fun i => (List.finRange 9).map fun j => (i, j)

/-- The assignment loop of `Board.from_matrix`: set each cell in turn,
stopping at the first out-of-range value. -/
def setCells (m : Mat) : List (Fin 9 × Fin 9) → Except PyErr Unit
  | [] => .ok ()
  | p :: ps =>
    match cellValueSet (m p.1 p.2) with
    | .error e => .error e
    | .ok _ => setCells m ps

/-- Embedding of `Board.from_matrix` (the board's cells end up holding
exactly the matrix entries). -/
def from_matrix (m : Mat) : Except PyErr Mat :=
  match setCells m rowMajorIdx with
  | .error e => .error e
  | .ok _ => .ok m

/-- Embedding of `Solver.solve` (src/PySudoku/model/sudoku/solver.py lines
77-91).  The SAT oracle is external (spec section 6): `oracle = some b`
stands for a sat answer whose decoded model is the board `b`, `none` for
unsat, in which case `NoSolutionError` is raised. -/
def solverSolve (oracle : Option Mat) : Except PyErr Mat :=
  match oracle with
  | some model => .ok model
  | none => .error .noSolution

/-- Embedding of `Sudoku.solve` (src/PySudoku/model/sudoku/__init__.py
lines 43-65): build the board, solve it, and re-raise
`InvalidCellValueError` and `NoSolutionError` as `InvalidMatrixError`. -/
def sudokuSolve (oracle : Option Mat) (m : Mat) : Except PyErr Mat :=
  let attempt : Except PyErr Mat :=
    match from_matrix m with
    | .error e => .error e
    | .ok _ => solverSolve oracle
  match attempt with
  | .ok r => .ok r
  | .error .invalidCellValue => .error .invalidMatrix
  | .error .noSolution => .error .invalidMatrix
  | .error e => .error e

/-! ## Worker-based solver retry branch (workers.py lines 128-136)

`Board` (board.py) defines no `__eq__`, so `==` between two `Board`
objects is reference identity.  References are modelled as allocation
indices: `Board.empty_board()` returns a fresh index, larger than every
index allocated before it. -/

def emptyBoardAlloc (next : ℕ) : ℕ × ℕ := (next, next + 1)

def boardRefEq (a b : ℕ) : Bool := a == b

inductive ResolveOutcome
  | solved
  | retried
  | noSolution
  deriving DecidableEq, Repr

/-- Embedding of the Worker `Solver.resolve`: on a sat answer return the
decoded board; otherwise compare the solver's board with a freshly built
`Board.empty_board()` and retry on equality; otherwise raise
`NoSolutionError`. -/
def workerResolve (satOk : Bool) (board next : ℕ) : ResolveOutcome :=
  if satOk then .solved
  else if boardRefEq board (emptyBoardAlloc next).1 then .retried
  else .noSolution

/-! ## Difficulty adaptation (generator.py lines 85-104)

`Generator._adapt_to_difficulty` receives the minimized board; if the
target clue count `17 * difficulty` exceeds its used-cell count, it pops
cells off a shuffled list of the unused cells and copies the full board's
value into them until the counts agree.  Otherwise the board is returned
unchanged.  Boards here carry plain cell values, `Fin 9 × Fin 9 → ℕ`. -/

/-! ## Rules translation (src/sudoku/translators.py, RulesTranslator)

`_uniqueness` runs two nested loops over `range_first x range_second`
(both `(0, 9)` in all four instantiations, `VALUE_RANGE` being `(0, 9)`
and the square side count being 9); for each pair it appends one
at-least-one clause over the 9 literals of `map_to_coord(first, second,
var)` and then the 36 pairwise at-most-one clauses for `0 <= i < j < 9`.
Clauses are lists of signed literals. -/

/-- A coordinate triple turned into a positive clause literal. -/
def litOfCoord (t : ℕ × ℕ × ℕ) : ℤ :=
  (coord_to_literal t.1 t.2.1 t.2.2 : ℤ)

/-- The at-least-one clause of one `(first, second)` pair. -/
def aloClause (mapToCoord : ℕ → ℕ → ℕ → ℕ × ℕ × ℕ) (first second : ℕ) :
    List ℤ :=
  (List.range 9).map fun var => litOfCoord (mapToCoord first second var)

/-- The pairwise at-most-one clauses of one `(first, second)` pair:
`{-lit_i, -lit_j}` for `i < j` in `[0, 9)`, in the source's loop order. -/
def amoClauses (mapToCoord : ℕ → ℕ → ℕ → ℕ × ℕ × ℕ) (first second : ℕ) :
    List (List ℤ) :=
  (List.range 8).flatMap fun i =>
    (List.range' (i + 1) (8 - i)).map fun j =>
      [-litOfCoord (mapToCoord first second i),
       -litOfCoord (mapToCoord first second j)]

/-- Embedding of `RulesTranslator._uniqueness` for one constraint family. -/
def uniquenessClauses (mapToCoord : ℕ → ℕ → ℕ → ℕ × ℕ × ℕ) :
    List (List ℤ) :=
  (List.range 9).flatMap fun first =>
    (List.range 9).flatMap fun second =>
      aloClause mapToCoord first second :: amoClauses mapToCoord first second

/-- `square_to_coord`'s row component (`_squares_constraints`). -/
def squareRow (square cell : ℕ) : ℕ := (square / 3) * 3 + cell / 3

/-- `square_to_coord`'s column component (`_squares_constraints`). -/
def squareCol (square cell : ℕ) : ℕ := (square % 3) * 3 + cell % 3

/-- `_values_uniqueness`: `map_to_coord = lambda x, y, z: (x, y, z)`. -/
def valuesUniqueness : List (List ℤ) :=
  uniquenessClauses fun x y z => (x, y, z)

/-- `_columns_constraints`: `map_to_coord = lambda x, y, z: (z, y, x)`. -/
def columnsConstraints : List (List ℤ) :=
  uniquenessClauses fun x y z => (z, y, x)

/-- `_rows_constraints`: `map_to_coord = lambda x, y, z: (y, z, x)`. -/
def rowsConstraints : List (List ℤ) :=
  uniquenessClauses fun x y z => (y, z, x)

/-- `_squares_constraints`: coordinates through `square_to_coord`. -/
def squaresConstraints : List (List ℤ) :=
  uniquenessClauses fun x y z => (squareRow y z, squareCol y z, x)

/-- `RulesTranslator.translate`: the four families concatenated in source
order. -/
def rulesFormula : List (List ℤ) :=
  valuesUniqueness ++ columnsConstraints ++ rowsConstraints ++ squaresConstraints

abbrev NatMat := Fin 9 × Fin 9 → ℕ

/-- Number of used (non-zero) cells, `len(board.get_cells(used=True))`. -/
def usedCount (m : NatMat) : ℕ :=
  (Finset.univ.filter fun p : Fin 9 × Fin 9 => m p ≠ 0).card

/-- The `while final_cell_number != n_used` loop: take the next cell from
the shuffled unused list, fill it from the full board, bump the count.
(Python's `pop()` takes from the tail, so the caller reverses the list;
popping an empty list cannot happen because at most `81 - n_used` fills
are requested.) -/
def adaptLoop (full : NatMat) (target : ℕ) :
    List (Fin 9 × Fin 9) → NatMat → ℕ → NatMat
  | [], m, _ => m
  | c :: rest, m, n =>
    if target = n then m
    else adaptLoop full target rest (Function.update m c (full c)) (n + 1)

/-- Embedding of `Generator._adapt_to_difficulty`; `unusedOrder` is the
shuffled `minimal_board.get_cells(used=False)` list. -/
def adaptToDifficulty (d : Difficulty) (full minimal : NatMat)
    (unusedOrder : List (Fin 9 × Fin 9)) : NatMat :=
  if 17 * d.multiplier > usedCount minimal then
    adaptLoop full (17 * d.multiplier) unusedOrder.reverse minimal
      (usedCount minimal)
  else minimal

/-! ## Randomized literal table and the instance/result round trip
(src/PySudoku/model/sudoku/translators.py)

`LiteralTranslator.randomize_values` shuffles a copy of `[1, ..., 729]`
(`9 * 9 * VALUE_RANGE[1]` values) and slices it into a table of 9
literals per cell: `matrix[i][j] = values[start : start + 9]` with
`start = j * 9 + i * 9 * 9`.  The shuffled list is taken as a parameter
here; the slicing is embedded exactly. -/

/-- `randomized_matrix[i][j][k]`: element `j * 9 + i * 81 + k` of the
shuffled value list. -/
def randLit (values : List ℕ) (i j k : ℕ) : ℕ :=
  values.getD (j * 9 + i * 81 + k) 0

/-- `LiteralTranslator._cell_to_literal`:
`randomized_matrix[cell.row][cell.col][cell.value - 1]`. -/
def cell_to_literal (values : List ℕ) (c : Cell) : ℕ :=
  randLit values c.row c.col (c.value - 1)

/-- `InstanceTranslator.translate`: one unit clause per used cell in
`get_cells`'s row-major order; represented by the flattened list of the
unit literals. -/
def instanceLiterals (values : List ℕ) (G : NatMat) : List ℕ :=
  (rowMajorIdx.filter fun p => G p ≠ 0).map fun p =>
    cell_to_literal values ⟨G p, p.1.val, p.2.val⟩

/-- `LiteralTranslator._literal_to_value`: the first digit of cell
`(i, j)` whose literal occurs among the valid (positive) literals; 0 when
none does. -/
def literal_to_value (values : List ℕ) (i j : ℕ) (valid : List ℤ) : ℕ :=
  let trues :=
    ((List.range 9).filter fun k =>
      ((randLit values i j k : ℕ) : ℤ) ∈ valid).map (· + 1)
  match trues with
  | [] => 0
  | t :: _ => t

/-- `ResultTranslator._translate_sat_result`: keep the positive literals
up to `max_problem_variable` (9 * 9 * 9 = 729) and decode every cell
through `_literal_to_value`. -/
def translate_sat_result (values : List ℕ) (result : List ℤ) : NatMat :=
  fun p =>
    literal_to_value values p.1.val p.2.val
      (result.filter fun v => 0 < v ∧ v ≤ 729)

/-! ## Minimizer (workers.py lines 139-188)

`Minimizer.resolve` holds a SAT oracle loaded with the rules formula and
one extra clause forbidding the full board's exact assignment
(`_forbid_board_solution`), then runs a destructive-test loop over the
shuffled clue literals of the full board.  The oracle is external (spec
section 6) and enters the embedding through its two observable answers:
`sat as` — whether rules + forbid-clause + assumption literals `as` are
satisfiable — and `core as`, the unsat core reported after an
unsatisfiable call. -/

/-- The `while len(untested_clues)` loop of `Minimizer.resolve`: pop the
last untested clue; if an alternate solution still exists under the
remaining assumptions, keep the clue, else drop it and restrict the
untested clues to the reported core. -/
def minimizerLoop (sat : List ℕ → Bool) (core : List ℕ → List ℕ) :
    List ℕ → List ℕ → List ℕ
  | [], result => result
  | u :: us, result =>
    let testClue := (u :: us).getLast (List.cons_ne_nil u us)
    let rest := (u :: us).dropLast
    if sat (result ++ rest) then
      minimizerLoop sat core rest (result ++ [testClue])
    else
      minimizerLoop sat core
        (rest.filter fun l => l ∈ core (result ++ rest)) result
  termination_by untested _ => untested.length
  decreasing_by
  · simp [List.length_dropLast]
  · calc ((u :: us).dropLast.filter fun l => l ∈ core (result ++ (u :: us).dropLast)).length
        ≤ (u :: us).dropLast.length := List.length_filter_le _ _
      _ < (u :: us).length := by simp [List.length_dropLast]

/-- `Minimizer.resolve`: minimize starting from the shuffled clue
literals of the full board (`clues`) and an empty kept set. -/
def minimizerResolve (sat : List ℕ → Bool) (core : List ℕ → List ℕ)
    (clues : List ℕ) : List ℕ :=
  minimizerLoop sat core clues []

/-! Toy two-board universe used to exercise the minimizer's oracle
contract on a concrete input. -/

def toyFull : NatMat := fun _ => 1

def toyAlt : NatMat := fun _ => 2

def toySat : List ℕ → Bool := fun as => as.all fun l => l == 2

def toyCore : List ℕ → List ℕ := fun as => as

def toyValid : NatMat → Prop := fun b => b = toyFull ∨ b = toyAlt

def toyModels : NatMat → ℕ → Prop :=
  fun b l => (l = 1 ∧ b = toyFull) ∨ (l = 2 ∧ b = toyAlt)

/-! ## Backtracking fill (generator.py lines 53-83, board.py BoardTester)

`Generator._generate_full_board` scans the cells in row-major order
(`row = cell // 9`, `col = cell % 9`) for the first empty one, tries a
freshly shuffled candidate list through `BoardTester.is_cell_correct`,
recurses, and on exhaustion resets the cell to 0 and reports failure.
`rand k` stands for the k-th `shuffle(values)` outcome; recursion depth
is bounded by an explicit fuel (the theorems show 82 suffices from an
empty board, `none` marking fuel exhaustion, which never occurs). -/

/-- `BoardTester._is_val_used_in_row`: scan the 9 cells of the row. -/
def is_val_used_in_row (b : NatMat) (r : Fin 9) (v : ℕ) : Bool :=
  (List.finRange 9).any fun j => b (r, j) == v

/-- `BoardTester._is_val_used_in_column`. -/
def is_val_used_in_column (b : NatMat) (c : Fin 9) (v : ℕ) : Bool :=
  (List.finRange 9).any fun i => b (i, c) == v

/-- `Board.coord_to_square`'s square index:
`(row // 3) * 3 + col // 3` (the same index `Board.__init__` files the
cell under). -/
def coordSquare (p : Fin 9 × Fin 9) : ℕ :=
  (p.1.val / 3) * 3 + p.2.val / 3

/-- `BoardTester._is_val_used_in_square`: scan the cells of the cell's
square. -/
def is_val_used_in_square (b : NatMat) (p : Fin 9 × Fin 9) (v : ℕ) : Bool :=
  (rowMajorIdx.filter fun q => coordSquare q == coordSquare p).any
    fun q => b q == v

/-- `BoardTester.is_cell_correct`: row check first, then column, then
square, short-circuiting on the first hit. -/
def is_cell_correct (b : NatMat) (p : Fin 9 × Fin 9) (v : ℕ) : Bool :=
  if is_val_used_in_row b p.1 v then false
  else if is_val_used_in_column b p.2 v then false
  else if is_val_used_in_square b p v then false
  else true

/-- The `for cell in range(0, n_cells)` scan for the first empty cell. -/
def firstEmpty (b : NatMat) : Option (Fin 9 × Fin 9) :=
  rowMajorIdx.find? fun p => b p == 0

mutual

/-- One invocation of `Generator._generate_full_board`: locate the first
empty cell and try the shuffled candidates there; with no empty cell left
the Python loop falls through with `row = col = 8`, resets that cell and
returns `False` (a branch its callers never reach). -/
def fillBoard (rand : ℕ → List ℕ) :
    ℕ → NatMat → ℕ → Option (Bool × NatMat × ℕ)
  | 0, _, _ => none
  | fuel + 1, b, k =>
    match firstEmpty b with
    | none => some (false, Function.update b ((8 : Fin 9), (8 : Fin 9)) 0, k)
    | some p => tryValues rand fuel p (rand k) b (k + 1)

/-- The `for v in values` loop: place `v + 1` when `is_cell_correct`
allows it, return success when no empty cell remains, otherwise recurse;
when the recursion fails continue with the next candidate on the board
the recursion handed back; on exhaustion reset the cell to 0 and fail. -/
def tryValues (rand : ℕ → List ℕ) (fuel : ℕ) (p : Fin 9 × Fin 9) :
    List ℕ → NatMat → ℕ → Option (Bool × NatMat × ℕ)
  | [], b, k => some (false, Function.update b p 0, k)
  | v :: vs, b, k =>
    if is_cell_correct b p (v + 1) then
      let b' := Function.update b p (v + 1)
      if (rowMajorIdx.filter fun q => b' q = 0).isEmpty then some (true, b', k)
      else
        match fillBoard rand fuel b' k with
        | none => none
        | some (true, b'', k') => some (true, b'', k')
        | some (false, b'', k') => tryValues rand fuel p vs b'' k'
    else tryValues rand fuel p vs b k

end

/-! Specification-side predicates for the generated boards. -/

/-- Two cells share a row, a column or a square. -/
def sameGroup (p q : Fin 9 × Fin 9) : Prop :=
  p.1 = q.1 ∨ p.2 = q.2 ∨ coordSquare p = coordSquare q

/-- No non-zero value occurs twice within a row, column or square. -/
def noRepeats (b : NatMat) : Prop :=
  ∀ p q, p ≠ q → sameGroup p q → b p ≠ 0 → b p ≠ b q

/-- Every cell is filled. -/
def complete (b : NatMat) : Prop := ∀ p, b p ≠ 0

/-- Every cell value is at most 9. -/
def subRange (b : NatMat) : Prop := ∀ p, b p ≤ 9

/-- `c` agrees with `b` on all of `b`'s filled cells. -/
def extendsB (b c : NatMat) : Prop := ∀ p, b p ≠ 0 → c p = b p

/-- `b` has a complete, rule-satisfying extension. -/
def completable (b : NatMat) : Prop :=
  ∃ c, extendsB b c ∧ complete c ∧ subRange c ∧ noRepeats c

/-- Number of empty cells. -/
def emptyCount (b : NatMat) : ℕ :=
  (Finset.univ.filter fun p : Fin 9 × Fin 9 => b p = 0).card

end PySudoku

namespace PySudoku

/-! ### Helper lemmas for the title-case characterization -/

/-- A word whose characters are all lowercase letters is fixed by `lower`. -/
theorem pyLower_fixed {w : List ℕ} (h : ∀ c ∈ w, 97 ≤ c ∧ c ≤ 122) :
    pyLower w = w := by
  induction w with
  | nil => rfl
  | cons c cs ih =>
    have hc := h c (by simp)
    have hcs : ∀ x ∈ cs, 97 ≤ x ∧ x ≤ 122 := fun x hx => h x (by simp [hx])
    simp only [pyLower, List.map_cons] at ih ⊢
    rw [ih hcs]
    have hl : pyToLowerChar c = c := by
      simp only [pyToLowerChar]; rw [if_neg]; omega
    rw [hl]

/-- After an alphabetic character, `title` behaves as `lower` when matched
against an all-lowercase target word. -/
theorem pyTitleGo_true_eq {w : List ℕ} (hw : ∀ c ∈ w, 97 ≤ c ∧ c ≤ 122) :
    ∀ s : List ℕ, pyTitleGo true s = w ↔ pyLower s = w := by
  induction w with
  | nil =>
    intro s
    cases s with
    | nil => simp [pyTitleGo, pyLower]
    | cons c cs => simp [pyTitleGo, pyLower]
  | cons d ds ih =>
    intro s
    have hd := hw d (by simp)
    have hds : ∀ x ∈ ds, 97 ≤ x ∧ x ≤ 122 := fun x hx => hw x (by simp [hx])
    cases s with
    | nil => simp [pyTitleGo, pyLower]
    | cons c cs =>
      simp only [pyTitleGo, pyLower, List.map_cons, List.cons.injEq]
      by_cases hc : pyIsAlpha c = true
      · have hh : pyTitleChar true c = pyToLowerChar c := by
          simp [pyTitleChar, hc]
        rw [hh, hc, ih hds cs]
        simp only [pyLower]
      · have hh : pyTitleChar true c = c := by
          simp [pyTitleChar, hc]
        rw [hh]
        simp only [pyIsAlpha, Bool.or_eq_true, Bool.and_eq_true, decide_eq_true_eq,
          not_or, not_and] at hc
        have hcd : ¬ c = d := by omega
        have hlc : pyToLowerChar c = c := by
          simp only [pyToLowerChar]; rw [if_neg]; omega
        rw [hlc]
        simp [hcd]

/-- `title s` equals a title-cased alphabetic word `d :: ds` (first letter
uppercase, rest lowercase) exactly when `lower s` equals the word's
lowercase form. -/
theorem pyTitle_eq_titleWord (d : ℕ) (ds : List ℕ)
    (hd : 65 ≤ d ∧ d ≤ 90) (hds : ∀ c ∈ ds, 97 ≤ c ∧ c ≤ 122) :
    ∀ s : List ℕ, pyTitle s = d :: ds ↔ pyLower s = pyLower (d :: ds) := by
  intro s
  cases s with
  | nil => simp [pyTitle, pyTitleGo, pyLower]
  | cons c cs =>
    simp only [pyTitle, pyTitleGo, pyLower, List.map_cons, List.cons.injEq]
    rw [show List.map pyToLowerChar ds = ds from pyLower_fixed hds]
    have hld : pyToLowerChar d = d + 32 := by
      simp only [pyToLowerChar]; rw [if_pos]; omega
    rw [hld]
    by_cases hc : pyIsAlpha c = true
    · have hh : pyTitleChar false c = pyToUpperChar c := by
        simp [pyTitleChar, hc]
      rw [hh, hc]
      have hc' := hc
      simp only [pyIsAlpha, Bool.or_eq_true, Bool.and_eq_true, decide_eq_true_eq] at hc'
      have hhead : pyToUpperChar c = d ↔ pyToLowerChar c = d + 32 := by
        simp only [pyToUpperChar, pyToLowerChar]
        rcases hc' with h | h
        · rw [if_neg (by omega), if_pos (by omega)]; omega
        · rw [if_pos (by omega), if_neg (by omega)]; omega
      rw [hhead, pyTitleGo_true_eq hds cs]
      simp only [pyLower]
    · have hh : pyTitleChar false c = c := by
        simp [pyTitleChar, hc]
      rw [hh]
      simp only [pyIsAlpha, Bool.or_eq_true, Bool.and_eq_true, decide_eq_true_eq,
        not_or, not_and] at hc
      have h1 : ¬ c = d := by omega
      have h2 : pyToLowerChar c = c := by
        simp only [pyToLowerChar]; rw [if_neg]; omega
      rw [h2]
      have h3 : ¬ c = d + 32 := by omega
      simp [h1, h3]

/-- `parseDifficulty` equals a case-insensitive lookup: titlecasing the
input and comparing against the enum names is the same as lowercasing it
and comparing against the lowercased names. -/
theorem parseDifficulty_eq_lowerLookup (s : List ℕ) :
    parseDifficulty s =
      (if pyLower s = [101, 97, 115, 121] then .ok .Easy
       else if pyLower s = [109, 101, 100, 105, 117, 109] then .ok .Medium
       else if pyLower s = [104, 97, 114, 100] then .ok .Hard
       else if pyLower s = [101, 120, 116, 114, 101, 109, 101] then .ok .Extreme
       else .error .invalidDifficulty) := by
  have hEasy := pyTitle_eq_titleWord 69 [97, 115, 121]
    (by omega) (by decide) s
  have hMedium := pyTitle_eq_titleWord 77 [101, 100, 105, 117, 109]
    (by omega) (by decide) s
  have hHard := pyTitle_eq_titleWord 72 [97, 114, 100]
    (by omega) (by decide) s
  have hExtreme := pyTitle_eq_titleWord 69 [120, 116, 114, 101, 109, 101]
    (by omega) (by decide) s
  rw [show pyLower [69, 97, 115, 121] = [101, 97, 115, 121] from by decide] at hEasy
  rw [show pyLower [77, 101, 100, 105, 117, 109] = [109, 101, 100, 105, 117, 109]
    from by decide] at hMedium
  rw [show pyLower [72, 97, 114, 100] = [104, 97, 114, 100] from by decide] at hHard
  rw [show pyLower [69, 120, 116, 114, 101, 109, 101] = [101, 120, 116, 114, 101, 109, 101]
    from by decide] at hExtreme
  unfold parseDifficulty
  simp only [difficultyName]
  rw [if_congr hEasy rfl (if_congr hMedium rfl (if_congr hHard rfl
    (if_congr hExtreme rfl rfl)))]

/-! ### Support lemmas for the public solve path -/

/-- Every coordinate pair is visited by `from_matrix`'s loops. -/
theorem mem_rowMajorIdx (p : Fin 9 × Fin 9) : p ∈ rowMajorIdx := by
  obtain ⟨i, j⟩ := p
  have hj : (i, j) ∈ (List.finRange 9).map fun j => (i, j) :=
    List.mem_map.mpr ⟨j, List.mem_finRange j, rfl⟩
  exact List.mem_flatMap.mpr ⟨i, List.mem_finRange i, hj⟩

/-- `setCells` succeeds exactly when every visited entry is in `[0, 9]`. -/
theorem setCells_ok_iff (m : Mat) (l : List (Fin 9 × Fin 9)) :
    setCells m l = .ok () ↔ ∀ p ∈ l, ¬(m p.1 p.2 < 0 ∨ 9 < m p.1 p.2) := by
  induction l with
  | nil => simp [setCells]
  | cons p ps ih =>
    simp only [setCells, cellValueSet]
    by_cases h : m p.1 p.2 < 0 ∨ 9 < m p.1 p.2
    · rw [if_pos h]
      simp only [List.mem_cons]
      constructor
      · intro hh; exact Except.noConfusion hh
      · intro hh; exact absurd h (hh p (Or.inl rfl))
    · rw [if_neg h]
      simp only [ih, List.mem_cons]
      constructor
      · intro hh q hq
        rcases hq with hq | hq
        · subst hq; exact h
        · exact hh q hq
      · intro hh q hq; exact hh q (Or.inr hq)

/-- `setCells` either succeeds or raises `InvalidCellValueError`. -/
theorem setCells_ok_or_invalid (m : Mat) (l : List (Fin 9 × Fin 9)) :
    setCells m l = .ok () ∨ setCells m l = .error .invalidCellValue := by
  induction l with
  | nil => exact Or.inl rfl
  | cons p ps ih =>
    simp only [setCells, cellValueSet]
    by_cases h : m p.1 p.2 < 0 ∨ 9 < m p.1 p.2
    · rw [if_pos h]; exact Or.inr rfl
    · rw [if_neg h]; exact ih

/-- `from_matrix` characterized: it returns the board's matrix when all
entries are in range and raises `InvalidCellValueError` otherwise. -/
theorem from_matrix_char (m : Mat) :
    (from_matrix m = .ok m ∧ ∀ i j, ¬(m i j < 0 ∨ 9 < m i j)) ∨
    (from_matrix m = .error .invalidCellValue ∧ ∃ i j, m i j < 0 ∨ 9 < m i j) := by
  rcases setCells_ok_or_invalid m rowMajorIdx with h | h
  · left
    refine ⟨by rw [from_matrix, h], fun i j => ?_⟩
    exact (setCells_ok_iff m rowMajorIdx).mp h (i, j) (mem_rowMajorIdx (i, j))
  · right
    refine ⟨by rw [from_matrix, h], ?_⟩
    by_contra hno
    push_neg at hno
    have : setCells m rowMajorIdx = .ok () := by
      rw [setCells_ok_iff]
      intro p _
      intro hbad
      rcases hbad with hb | hb
      · have := hno p.1 p.2
        omega
      · have := hno p.1 p.2
        omega
    rw [this] at h
    exact Except.noConfusion h

/-- **C9.** For every two cells `a` and `b`, `a == b` holds iff their rows
and columns agree; the values play no part, so two cells at the same
position with different values compare equal
(`Cell.__eq__`, src/PySudoku/model/sudoku/board.py lines 57-58). -/
theorem cell_eq_iff_same_position :
    (∀ a b : Cell, cellEq a b = true ↔ (a.row = b.row ∧ a.col = b.col)) ∧
    (∀ a b : Cell, ∀ v w : ℕ,
      cellEq { a with value := v } { b with value := w } = cellEq a b) ∧
    cellEq ⟨1, 4, 7⟩ ⟨2, 4, 7⟩ = true := by
  refine ⟨fun a b => ?_, fun a b v w => rfl, by decide⟩
  simp [cellEq]

/-- **C2.** The coordinate-to-literal map of `src/sudoku/translators.py` is
a total bijection from (row, col, digit) triples onto the literal domain
`[1, 729]`, and `_literal_to_coord` inverts `_coord_to_literal` on every
valid triple. -/
theorem literal_encoding_bijective :
    (∀ r c v : Fin 9,
        1 ≤ coord_to_literal r.val c.val v.val ∧
        coord_to_literal r.val c.val v.val ≤ 729 ∧
        literal_to_coord (coord_to_literal r.val c.val v.val) =
          (r.val, c.val, v.val)) ∧
    Function.Bijective coordLiteralFin := by
  constructor
  · intro r c v
    obtain ⟨r, hr⟩ := r
    obtain ⟨c, hc⟩ := c
    obtain ⟨v, hv⟩ := v
    simp only [coord_to_literal, literal_to_coord]
    refine ⟨by omega, by omega, ?_⟩
    have h1 : (v + 9 * c + 81 * r + 1 - 1) = v + 9 * c + 81 * r := by omega
    rw [h1]
    have hrow : (v + 9 * c + 81 * r) / 81 = r := by omega
    rw [hrow]
    have hcol : (v + 9 * c + 81 * r - r * 81) / 9 = c := by omega
    rw [hcol]
    have hval : v + 9 * c + 81 * r - c * 9 - r * 81 = v := by omega
    rw [hval]
  · rw [Fintype.bijective_iff_injective_and_card]
    refine ⟨fun a b hab => ?_, by simp only [Fintype.card_prod, Fintype.card_fin]⟩
    obtain ⟨⟨a1, h1⟩, ⟨a2, h2⟩, ⟨a3, h3⟩⟩ := a
    obtain ⟨⟨b1, g1⟩, ⟨b2, g2⟩, ⟨b3, g3⟩⟩ := b
    simp only [coordLiteralFin, Fin.mk.injEq] at hab
    simp only [Prod.mk.injEq, Fin.mk.injEq]
    omega

/-- **C7.** `Sudoku.generate` fails with `InvalidDifficulty` exactly when
the name does not match one of Easy, Medium, Hard, Extreme
case-insensitively; `"extreme"` and `"EASY"` are accepted, `"impossible"`
is rejected, and no generation work is involved in the decision
(src/PySudoku/model/sudoku/__init__.py lines 17-41). -/
theorem generate_difficulty_validation :
    (∀ s : List ℕ,
      (parseDifficulty s = .error .invalidDifficulty ↔
        ∀ d : Difficulty, pyLower s ≠ pyLower (difficultyName d)) ∧
      ∀ d : Difficulty,
        parseDifficulty s = .ok d ↔ pyLower s = pyLower (difficultyName d)) ∧
    parseDifficulty [101, 120, 116, 114, 101, 109, 101] = .ok .Extreme ∧
    parseDifficulty [69, 65, 83, 89] = .ok .Easy ∧
    parseDifficulty [105, 109, 112, 111, 115, 115, 105, 98, 108, 101] =
      .error .invalidDifficulty := by
  refine ⟨fun s => ?_, by rfl, by rfl, by rfl⟩
  have eE : pyLower (difficultyName .Easy) = [101, 97, 115, 121] := by decide
  have eM : pyLower (difficultyName .Medium) = [109, 101, 100, 105, 117, 109] := by
    decide
  have eH : pyLower (difficultyName .Hard) = [104, 97, 114, 100] := by decide
  have eX : pyLower (difficultyName .Extreme) = [101, 120, 116, 114, 101, 109, 101] := by
    decide
  rw [parseDifficulty_eq_lowerLookup]
  by_cases h1 : pyLower s = [101, 97, 115, 121]
  · rw [if_pos h1]
    refine ⟨⟨fun h => by simp at h, fun h => absurd (h1.trans eE.symm) (h .Easy)⟩, ?_⟩
    intro d
    cases d <;> simp [eE, eM, eH, eX, h1]
  · rw [if_neg h1]
    by_cases h2 : pyLower s = [109, 101, 100, 105, 117, 109]
    · rw [if_pos h2]
      refine ⟨⟨fun h => by simp at h, fun h => absurd (h2.trans eM.symm) (h .Medium)⟩, ?_⟩
      intro d
      cases d <;> simp [eE, eM, eH, eX, h2]
    · rw [if_neg h2]
      by_cases h3 : pyLower s = [104, 97, 114, 100]
      · rw [if_pos h3]
        refine ⟨⟨fun h => by simp at h, fun h => absurd (h3.trans eH.symm) (h .Hard)⟩, ?_⟩
        intro d
        cases d <;> simp [eE, eM, eH, eX, h3]
      · rw [if_neg h3]
        by_cases h4 : pyLower s = [101, 120, 116, 114, 101, 109, 101]
        · rw [if_pos h4]
          refine ⟨⟨fun h => by simp at h,
            fun h => absurd (h4.trans eX.symm) (h .Extreme)⟩, ?_⟩
          intro d
          cases d <;> simp [eE, eM, eH, eX, h4]
        · rw [if_neg h4]
          constructor
          · constructor
            · intro _ d
              cases d <;> simp [eE, eM, eH, eX] <;> assumption
            · intro _; rfl
          · intro d
            refine ⟨fun h => by simp at h, fun h => ?_⟩
            cases d
            · rw [eE] at h; exact absurd h h1
            · rw [eM] at h; exact absurd h h2
            · rw [eH] at h; exact absurd h h3
            · rw [eX] at h; exact absurd h h4

/-- **C6.** The public `Sudoku.solve` fails with `InvalidMatrix` exactly
when some matrix value lies outside `[0, 9]` (raised as
`InvalidCellValueError` at board construction, before the oracle is
reached) or the oracle reports unsatisfiability (`NoSolutionError`); no
grid accompanies a failure, and on success the oracle's decoded board is
returned (src/PySudoku/model/sudoku/__init__.py lines 43-65). -/
theorem solve_invalid_matrix (oracle : Option Mat) (m : Mat) :
    (sudokuSolve oracle m = .error .invalidMatrix ↔
      (∃ i j, m i j < 0 ∨ 9 < m i j) ∨ oracle = none) ∧
    ((∃ i j, m i j < 0 ∨ 9 < m i j) →
      ∀ oracle', sudokuSolve oracle' m = .error .invalidMatrix) ∧
    (∀ r, sudokuSolve oracle m = .ok r → oracle = some r) ∧
    ((∃ r, sudokuSolve oracle m = .ok r) ∨
      sudokuSolve oracle m = .error .invalidMatrix) := by
  rcases from_matrix_char m with ⟨hok, hrange⟩ | ⟨herr, hbad⟩
  · have hnobad : ¬ ∃ i j, m i j < 0 ∨ 9 < m i j := by
      rintro ⟨i, j, hij⟩; exact hrange i j hij
    cases oracle with
    | some b =>
      have hres : sudokuSolve (some b) m = .ok b := by
        simp [sudokuSolve, hok, solverSolve]
      refine ⟨?_, ?_, ?_, ?_⟩
      · rw [hres]
        constructor
        · intro h; exact Except.noConfusion h
        · rintro (h | h)
          · exact absurd h hnobad
          · exact Option.noConfusion h
      · intro h; exact absurd h hnobad
      · intro r hr
        rw [hres] at hr
        cases hr
        rfl
      · exact Or.inl ⟨b, hres⟩
    | none =>
      have hres : sudokuSolve none m = .error .invalidMatrix := by
        simp [sudokuSolve, hok, solverSolve]
      refine ⟨?_, ?_, ?_, ?_⟩
      · rw [hres]; simp
      · intro h; exact absurd h hnobad
      · intro r hr
        rw [hres] at hr
        exact Except.noConfusion hr
      · exact Or.inr hres
  · have hres : ∀ oracle' : Option Mat,
        sudokuSolve oracle' m = .error .invalidMatrix := by
      intro oracle'
      simp [sudokuSolve, herr]
    refine ⟨?_, fun _ oracle' => hres oracle', ?_, Or.inr (hres oracle)⟩
    · rw [hres oracle]
      constructor
      · intro _; exact Or.inl hbad
      · intro _; rfl
    · intro r hr
      rw [hres oracle] at hr
      exact Except.noConfusion hr

/-- **C10.** In the Worker-based `Solver.resolve` (workers.py lines
128-136), the middle branch comparing the board against a fresh
`Board.empty_board()` is reference identity against a just-allocated
object, hence always false; every unsat answer therefore raises
`NoSolutionError` and the retry is unreachable. -/
theorem worker_resolve_never_retries (satOk : Bool) (board next : ℕ)
    (halloc : board < next) :
    workerResolve satOk board next =
      (if satOk then .solved else .noSolution) ∧
    workerResolve satOk board next ≠ ResolveOutcome.retried := by
  have hne : (board == next) = false := by
    simp only [beq_eq_false_iff_ne, ne_eq]
    omega
  unfold workerResolve boardRefEq emptyBoardAlloc
  cases satOk <;> simp [hne]

/-- Witness for `worker_resolve_never_retries` at a concrete allocation
state: the board was allocated at index 0, the fresh empty board at 1. -/
theorem worker_resolve_never_retries_witness :
    (0 : ℕ) < 1 ∧
    (workerResolve false 0 1 =
        (if false then .solved else .noSolution) ∧
      workerResolve false 0 1 ≠ ResolveOutcome.retried) :=
  ⟨Nat.zero_lt_one, worker_resolve_never_retries false 0 1 Nat.zero_lt_one⟩

/-! ### Clause accounting for the rules translation -/

theorem aloClause_length (f : ℕ → ℕ → ℕ → ℕ × ℕ × ℕ) (a b : ℕ) :
    (aloClause f a b).length = 9 := by
  simp [aloClause]

theorem amoClauses_mem_length (f : ℕ → ℕ → ℕ → ℕ × ℕ × ℕ) (a b : ℕ) :
    ∀ c ∈ amoClauses f a b, c.length = 2 := by
  intro c hc
  simp only [amoClauses, List.mem_flatMap, List.mem_map, List.mem_range] at hc
  obtain ⟨i, _, j, _, rfl⟩ := hc
  rfl

theorem amoClauses_length (f : ℕ → ℕ → ℕ → ℕ × ℕ × ℕ) (a b : ℕ) :
    (amoClauses f a b).length = 36 := by
  simp only [amoClauses, List.length_flatMap, Function.comp_def, List.length_map,
    List.length_range']
  decide

theorem amoClauses_countP9 (f : ℕ → ℕ → ℕ → ℕ × ℕ × ℕ) (a b : ℕ) :
    (amoClauses f a b).countP (fun c => c.length = 9) = 0 := by
  rw [List.countP_eq_zero]
  intro c hc
  simp [amoClauses_mem_length f a b c hc]

theorem amoClauses_countP2 (f : ℕ → ℕ → ℕ → ℕ × ℕ × ℕ) (a b : ℕ) :
    (amoClauses f a b).countP (fun c => c.length = 2) = 36 :=
  calc (amoClauses f a b).countP (fun c => c.length = 2)
      = (amoClauses f a b).length := List.countP_eq_length.mpr
        (by intro c hc; simp [amoClauses_mem_length f a b c hc])
    _ = 36 := amoClauses_length f a b

theorem uniquenessClauses_countP9 (f : ℕ → ℕ → ℕ → ℕ × ℕ × ℕ) :
    (uniquenessClauses f).countP (fun c => c.length = 9) = 81 := by
  simp only [uniquenessClauses, List.countP_flatMap, Function.comp_def,
    List.countP_cons, amoClauses_countP9, aloClause_length]
  simp

theorem uniquenessClauses_countP2 (f : ℕ → ℕ → ℕ → ℕ × ℕ × ℕ) :
    (uniquenessClauses f).countP (fun c => c.length = 2) = 81 * 36 := by
  simp only [uniquenessClauses, List.countP_flatMap, Function.comp_def,
    List.countP_cons, amoClauses_countP2, aloClause_length]
  simp

theorem uniquenessClauses_length (f : ℕ → ℕ → ℕ → ℕ × ℕ × ℕ) :
    (uniquenessClauses f).length = 81 * 37 := by
  simp only [uniquenessClauses, List.length_flatMap, Function.comp_def,
    List.length_cons, amoClauses_length]
  simp

/-- Literal bound: a coordinate triple with all components below 9 maps to
a positive literal in `[1, 729]`. -/
theorem litOfCoord_bounds {t : ℕ × ℕ × ℕ}
    (h1 : t.1 < 9) (h2 : t.2.1 < 9) (h3 : t.2.2 < 9) :
    0 < litOfCoord t ∧ 1 ≤ (litOfCoord t).natAbs ∧ (litOfCoord t).natAbs ≤ 729 := by
  have hb : 1 ≤ coord_to_literal t.1 t.2.1 t.2.2 ∧
      coord_to_literal t.1 t.2.1 t.2.2 ≤ 729 := by
    unfold coord_to_literal
    omega
  unfold litOfCoord
  refine ⟨?_, ?_, ?_⟩
  · exact_mod_cast Nat.lt_of_lt_of_le Nat.zero_lt_one hb.1
  · rw [Int.natAbs_ofNat]; exact hb.1
  · rw [Int.natAbs_ofNat]; exact hb.2

/-- Shape of every clause of one constraint family: the at-least-one
clauses have 9 positive literals, the at-most-one clauses 2 negative
ones, and all literals stay within the 729 problem variables, provided
the coordinate map keeps all components below 9. -/
theorem uniquenessClauses_mem (f : ℕ → ℕ → ℕ → ℕ × ℕ × ℕ)
    (hf : ∀ a b v, a < 9 → b < 9 → v < 9 →
      (f a b v).1 < 9 ∧ (f a b v).2.1 < 9 ∧ (f a b v).2.2 < 9) :
    ∀ c ∈ uniquenessClauses f,
      ((c.length = 9 ∧ ∀ l ∈ c, 0 < l) ∨ (c.length = 2 ∧ ∀ l ∈ c, l < 0)) ∧
      ∀ l ∈ c, 1 ≤ l.natAbs ∧ l.natAbs ≤ 729 := by
  intro c hc
  simp only [uniquenessClauses, List.mem_flatMap, List.mem_range,
    List.mem_cons] at hc
  obtain ⟨a, ha, b, hb, hc | hc⟩ := hc
  · have hlit : ∀ v, v < 9 →
        0 < litOfCoord (f a b v) ∧ 1 ≤ (litOfCoord (f a b v)).natAbs ∧
          (litOfCoord (f a b v)).natAbs ≤ 729 := by
      intro v hv
      obtain ⟨h1, h2, h3⟩ := hf a b v ha hb hv
      exact litOfCoord_bounds h1 h2 h3
    subst hc
    constructor
    · left
      refine ⟨aloClause_length f a b, ?_⟩
      intro l hl
      simp only [aloClause, List.mem_map, List.mem_range] at hl
      obtain ⟨v, hv, rfl⟩ := hl
      exact (hlit v hv).1
    · intro l hl
      simp only [aloClause, List.mem_map, List.mem_range] at hl
      obtain ⟨v, hv, rfl⟩ := hl
      exact (hlit v hv).2
  · simp only [amoClauses, List.mem_flatMap, List.mem_map, List.mem_range,
      List.mem_range'_1] at hc
    obtain ⟨i, hi, j, hj, rfl⟩ := hc
    have hi9 : i < 9 := by omega
    have hj9 : j < 9 := by omega
    obtain ⟨hpi, hni1, hni2⟩ := litOfCoord_bounds
      (hf a b i ha hb hi9).1 (hf a b i ha hb hi9).2.1 (hf a b i ha hb hi9).2.2
    obtain ⟨hpj, hnj1, hnj2⟩ := litOfCoord_bounds
      (hf a b j ha hb hj9).1 (hf a b j ha hb hj9).2.1 (hf a b j ha hb hj9).2.2
    constructor
    · right
      refine ⟨rfl, ?_⟩
      intro l hl
      simp only [List.mem_cons, List.not_mem_nil, or_false] at hl
      rcases hl with rfl | rfl
      · omega
      · omega
    · intro l hl
      simp only [List.mem_cons, List.not_mem_nil, or_false] at hl
      rcases hl with rfl | rfl
      · rw [Int.natAbs_neg]; exact ⟨hni1, hni2⟩
      · rw [Int.natAbs_neg]; exact ⟨hnj1, hnj2⟩

/-- **C3.** The rules translation emits, per constraint family and
(group, position) pair, one at-least-one clause over 9 candidate literals
plus the 36 pairwise at-most-one clauses, totalling 4 x 81 at-least-one
clauses and 4 x 81 x 36 at-most-one clauses and nothing else, with every
literal among the 729 cell-value variables
(src/sudoku/translators.py, `RulesTranslator`). -/
theorem rules_translation_clause_counts :
    rulesFormula.countP (fun c => c.length = 9) = 4 * 81 ∧
    rulesFormula.countP (fun c => c.length = 2) = 4 * 81 * 36 ∧
    rulesFormula.length = 4 * 81 + 4 * 81 * 36 ∧
    (∀ c ∈ rulesFormula,
      (c.length = 9 ∧ ∀ l ∈ c, 0 < l) ∨ (c.length = 2 ∧ ∀ l ∈ c, l < 0)) ∧
    (∀ c ∈ rulesFormula, ∀ l ∈ c, 1 ≤ l.natAbs ∧ l.natAbs ≤ 729) := by
  have hv : ∀ a b v : ℕ, a < 9 → b < 9 → v < 9 →
      a < 9 ∧ b < 9 ∧ v < 9 := fun _ _ _ ha hb hvv => ⟨ha, hb, hvv⟩
  have hmemV := uniquenessClauses_mem (fun x y z => (x, y, z))
    (fun a b v ha hb hvv => ⟨ha, hb, hvv⟩)
  have hmemC := uniquenessClauses_mem (fun x y z => (z, y, x))
    (fun a b v ha hb hvv => ⟨hvv, hb, ha⟩)
  have hmemR := uniquenessClauses_mem (fun x y z => (y, z, x))
    (fun a b v ha hb hvv => ⟨hb, hvv, ha⟩)
  have hmemS := uniquenessClauses_mem
    (fun x y z => (squareRow y z, squareCol y z, x))
    (fun a b v ha hb hvv => by
      simp only [squareRow, squareCol]
      omega)
  refine ⟨?_, ?_, ?_, ?_, ?_⟩
  · simp [rulesFormula, valuesUniqueness, columnsConstraints, rowsConstraints,
      squaresConstraints, List.countP_append, uniquenessClauses_countP9]
  · simp [rulesFormula, valuesUniqueness, columnsConstraints, rowsConstraints,
      squaresConstraints, List.countP_append, uniquenessClauses_countP2]
  · simp [rulesFormula, valuesUniqueness, columnsConstraints, rowsConstraints,
      squaresConstraints, List.length_append, uniquenessClauses_length]
  · intro c hc
    simp only [rulesFormula, valuesUniqueness, columnsConstraints,
      rowsConstraints, squaresConstraints, List.mem_append] at hc
    rcases hc with ((hc | hc) | hc) | hc
    · exact (hmemV c hc).1
    · exact (hmemC c hc).1
    · exact (hmemR c hc).1
    · exact (hmemS c hc).1
  · intro c hc
    simp only [rulesFormula, valuesUniqueness, columnsConstraints,
      rowsConstraints, squaresConstraints, List.mem_append] at hc
    rcases hc with ((hc | hc) | hc) | hc
    · exact (hmemV c hc).2
    · exact (hmemC c hc).2
    · exact (hmemR c hc).2
    · exact (hmemS c hc).2

/-! ### Clue-count accounting for `_adapt_to_difficulty` -/

/-- Filling a previously empty cell with a non-zero value raises the used
count by one. -/
theorem usedCount_update_of_zero {m : NatMat} {c : Fin 9 × Fin 9} {v : ℕ}
    (hc : m c = 0) (hv : v ≠ 0) :
    usedCount (Function.update m c v) = usedCount m + 1 := by
  unfold usedCount
  have hset : (Finset.univ.filter fun p => Function.update m c v p ≠ 0)
      = insert c (Finset.univ.filter fun p => m p ≠ 0) := by
    ext p
    by_cases hp : p = c
    · subst hp
      simp [Function.update_same, hv]
    · simp [Function.update_noteq hp, hp]
  rw [hset, Finset.card_insert_of_not_mem]
  simp [hc]

/-- The padding loop stops exactly at the target count when it starts at
or below the target and has enough fresh cells to fill. -/
theorem adaptLoop_usedCount (full : NatMat) (target : ℕ) :
    ∀ (l : List (Fin 9 × Fin 9)) (m : NatMat),
      (∀ c ∈ l, m c = 0) → l.Nodup → (∀ c, full c ≠ 0) →
      usedCount m ≤ target → target ≤ usedCount m + l.length →
      usedCount (adaptLoop full target l m (usedCount m)) = target := by
  intro l
  induction l with
  | nil =>
    intro m _ _ _ h1 h2
    simp only [adaptLoop]
    simp only [List.length_nil, Nat.add_zero] at h2
    omega
  | cons c rest ih =>
    intro m hzero hnodup hfull h1 h2
    simp only [adaptLoop]
    by_cases ht : target = usedCount m
    · rw [if_pos ht]; omega
    · rw [if_neg ht]
      have hc : m c = 0 := hzero c (by simp)
      have hcount : usedCount (Function.update m c (full c)) = usedCount m + 1 :=
        usedCount_update_of_zero hc (hfull c)
      rw [show usedCount m + 1 = usedCount (Function.update m c (full c))
        from hcount.symm]
      apply ih
      · intro e he
        have hec : e ≠ c := by
          intro hq
          exact (List.nodup_cons.mp hnodup).1 (hq ▸ he)
        rw [Function.update_noteq hec]
        exact hzero e (by simp [he])
      · exact (List.nodup_cons.mp hnodup).2
      · exact hfull
      · omega
      · simp only [List.length_cons] at h2
        omega

/-- **C5 (amended).** The clue count of the board `_adapt_to_difficulty`
returns is `max (17 * multiplier) (clue count of the minimized board)`:
when the minimized board is below the target, random clues from the full
board are added back until exactly the target is reached; when it already
meets or exceeds the target it is returned unchanged, so the count can
exceed `17 * multiplier` (generator.py lines 85-104). -/
theorem adapt_to_difficulty_clue_count (d : Difficulty) (full minimal : NatMat)
    (order : List (Fin 9 × Fin 9))
    (hmem : ∀ c, c ∈ order ↔ minimal c = 0)
    (hnodup : order.Nodup)
    (hfull : ∀ c, full c ≠ 0) :
    usedCount (adaptToDifficulty d full minimal order) =
      max (17 * d.multiplier) (usedCount minimal) := by
  unfold adaptToDifficulty
  by_cases hgt : 17 * d.multiplier > usedCount minimal
  · rw [if_pos hgt]
    have htle : 17 * d.multiplier ≤ 68 := by cases d <;> decide
    have hsplit : (Finset.univ.filter fun p : Fin 9 × Fin 9 => minimal p ≠ 0).card
        + (Finset.univ.filter fun p : Fin 9 × Fin 9 => minimal p = 0).card = 81 := by
      have h := Finset.filter_card_add_filter_neg_card_eq_card
        (s := (Finset.univ : Finset (Fin 9 × Fin 9)))
        (p := fun p => minimal p ≠ 0)
      simp only [ne_eq, not_not, Finset.card_univ, Fintype.card_prod,
        Fintype.card_fin] at h
      simpa using h
    have htf : order.toFinset
        = Finset.univ.filter fun p : Fin 9 × Fin 9 => minimal p = 0 := by
      ext c
      simp [List.mem_toFinset, hmem c]
    have hlen : order.length
        = (Finset.univ.filter fun p : Fin 9 × Fin 9 => minimal p = 0).card := by
      rw [← htf, List.card_toFinset, List.Nodup.dedup hnodup]
    have hused : usedCount minimal
        = (Finset.univ.filter fun p : Fin 9 × Fin 9 => minimal p ≠ 0).card := rfl
    have hres := adaptLoop_usedCount full (17 * d.multiplier) order.reverse minimal
      (fun c hc => (hmem c).mp (List.mem_reverse.mp hc))
      (List.nodup_reverse.mpr hnodup) hfull
      (Nat.le_of_lt hgt)
      (by rw [List.length_reverse]; omega)
    rw [hres]
    omega
  · rw [if_neg hgt]
    omega

/-- Witness for `adapt_to_difficulty_clue_count`: an all-filled minimized
board with no unused cells, at difficulty Easy. -/
theorem adapt_to_difficulty_clue_count_witness :
    (∀ c : Fin 9 × Fin 9, c ∈ ([] : List (Fin 9 × Fin 9)) ↔
        (fun _ : Fin 9 × Fin 9 => 1) c = 0) ∧
    ([] : List (Fin 9 × Fin 9)).Nodup ∧
    (∀ c : Fin 9 × Fin 9, (fun _ : Fin 9 × Fin 9 => 1) c ≠ 0) ∧
    usedCount (adaptToDifficulty .Easy (fun _ => 1) (fun _ => 1) []) =
      max (17 * Difficulty.multiplier .Easy)
        (usedCount fun _ : Fin 9 × Fin 9 => 1) :=
  ⟨by simp, List.nodup_nil, fun _ => one_ne_zero,
    adapt_to_difficulty_clue_count .Easy (fun _ => 1) (fun _ => 1) []
      (by simp) List.nodup_nil (fun _ => one_ne_zero)⟩

/-- **C5, counterexample to the claim as stated.**  With difficulty
Extreme (target 17 x 1 = 17) and a minimized board still carrying 18
clues (rows 0 and 1 filled), `_adapt_to_difficulty` returns the board
unchanged with 18 clues: the clue count does not equal 17 times the
multiplier, because the code only pads up and never removes. -/
theorem adapt_to_difficulty_clue_count_counterexample :
    ¬ (usedCount (adaptToDifficulty .Extreme (fun _ => 1)
        (fun p : Fin 9 × Fin 9 => if p.1.val ≤ 1 then 1 else 0)
        (rowMajorIdx.filter fun p => 2 ≤ p.1.val)) =
      17 * Difficulty.multiplier .Extreme) := by
  decide

/-! ### Round trip through the randomized literal table -/

/-- Entries of the randomized table are entries of the shuffled list. -/
theorem randLit_mem {values : List ℕ} (hlen : values.length = 729)
    {i j k : ℕ} (hi : i < 9) (hj : j < 9) (hk : k < 9) :
    randLit values i j k ∈ values := by
  unfold randLit
  have hidx : j * 9 + i * 81 + k < values.length := by omega
  rw [List.getD_eq_getElem _ _ hidx]
  exact values.getElem_mem hidx

/-- The randomized table assigns distinct literals to distinct
(row, col, digit) triples when the shuffled list has no duplicates. -/
theorem randLit_inj {values : List ℕ} (hlen : values.length = 729)
    (hnodup : values.Nodup) {i j k i' j' k' : ℕ}
    (hi : i < 9) (hj : j < 9) (hk : k < 9)
    (hi' : i' < 9) (hj' : j' < 9) (hk' : k' < 9)
    (heq : randLit values i j k = randLit values i' j' k') :
    i = i' ∧ j = j' ∧ k = k' := by
  unfold randLit at heq
  have h1 : j * 9 + i * 81 + k < values.length := by omega
  have h2 : j' * 9 + i' * 81 + k' < values.length := by omega
  rw [List.getD_eq_getElem _ _ h1, List.getD_eq_getElem _ _ h2] at heq
  have := (List.Nodup.getElem_inj_iff hnodup).mp heq
  omega

/-- Every instance literal comes from the shuffled list. -/
theorem instanceLiterals_mem_values {values : List ℕ}
    (hlen : values.length = 729) {G : NatMat} (hG : ∀ p, G p ≤ 9) :
    ∀ y ∈ instanceLiterals values G, y ∈ values := by
  intro y hy
  simp only [instanceLiterals, List.mem_map, List.mem_filter] at hy
  obtain ⟨q, ⟨_, hq0⟩, rfl⟩ := hy
  have hq0' : G q ≠ 0 := by simpa using hq0
  have hGq : G q - 1 < 9 := by have := hG q; omega
  exact randLit_mem hlen q.1.isLt q.2.isLt hGq

/-- A candidate literal of cell `p` occurs among the instance literals
exactly when it is the literal of `p`'s own value. -/
theorem mem_instanceLiterals_iff {values : List ℕ}
    (hlen : values.length = 729) (hnodup : values.Nodup)
    {G : NatMat} (hG : ∀ p, G p ≤ 9)
    {p : Fin 9 × Fin 9} (hp : G p ≠ 0) {k : ℕ} (hk : k < 9) :
    randLit values p.1.val p.2.val k ∈ instanceLiterals values G ↔
      k = G p - 1 := by
  unfold instanceLiterals
  rw [List.mem_map]
  constructor
  · rintro ⟨q, hq, heq⟩
    rw [List.mem_filter] at hq
    have hq0 : G q ≠ 0 := by simpa using hq.2
    unfold cell_to_literal at heq
    simp only at heq
    have hGq : G q - 1 < 9 := by have := hG q; omega
    obtain ⟨h1, h2, h3⟩ := randLit_inj hlen hnodup
      q.1.isLt q.2.isLt hGq p.1.isLt p.2.isLt hk heq
    have hqp : q = p := Prod.ext (Fin.ext h1) (Fin.ext h2)
    subst hqp
    omega
  · intro hkk
    refine ⟨p, ?_, ?_⟩
    · rw [List.mem_filter]
      exact ⟨mem_rowMajorIdx p, by simpa using hp⟩
    · unfold cell_to_literal
      simp only
      rw [hkk]

/-- Casting to `ℤ` and filtering to `(0, 729]` does not change which
literals of the instance list are present. -/
theorem mem_validList_iff {values : List ℕ}
    (hlen : values.length = 729)
    (hrange : ∀ v ∈ values, 1 ≤ v ∧ v ≤ 729)
    {G : NatMat} (hG : ∀ p, G p ≤ 9) (x : ℕ) :
    ((x : ℤ) ∈ ((instanceLiterals values G).map fun n : ℕ => (n : ℤ)).filter
      (fun v => 0 < v ∧ v ≤ 729)) ↔ x ∈ instanceLiterals values G := by
  rw [List.mem_filter]
  constructor
  · rintro ⟨hmem, _⟩
    rw [List.mem_map] at hmem
    obtain ⟨y, hy, hcast⟩ := hmem
    have hyx : y = x := by exact_mod_cast hcast
    exact hyx ▸ hy
  · intro hx
    have hxv : x ∈ values := instanceLiterals_mem_values hlen hG x hx
    obtain ⟨hx1, hx2⟩ := hrange x hxv
    refine ⟨List.mem_map.mpr ⟨x, hx, rfl⟩, ?_⟩
    simp only [decide_eq_true_eq]
    exact ⟨by exact_mod_cast hx1, by exact_mod_cast hx2⟩

/-- **C1.** Round trip: decoding the unit literals that
`InstanceTranslator.translate` produces for a board `G` (through the same
un-re-randomized `LiteralTranslator` table, given by any duplicate-free
shuffle `values` of `[1, ..., 729]`) restores `G` on every filled
cell. -/
theorem instance_result_roundtrip (values : List ℕ) (G : NatMat)
    (hlen : values.length = 729) (hnodup : values.Nodup)
    (hrange : ∀ v ∈ values, 1 ≤ v ∧ v ≤ 729)
    (hG : ∀ p, G p ≤ 9) :
    ∀ p, G p ≠ 0 →
      translate_sat_result values
        ((instanceLiterals values G).map fun n : ℕ => (n : ℤ)) p = G p := by
  intro p hp
  unfold translate_sat_result literal_to_value
  have hpred : ∀ k ∈ List.range 9,
      (decide (((randLit values p.1.val p.2.val k : ℕ) : ℤ) ∈
        ((instanceLiterals values G).map fun n : ℕ => (n : ℤ)).filter
          (fun v => 0 < v ∧ v ≤ 729))) = (k == G p - 1) := by
    intro k hk
    rw [List.mem_range] at hk
    rw [Bool.eq_iff_iff, decide_eq_true_eq, beq_iff_eq]
    rw [mem_validList_iff hlen hrange hG]
    exact mem_instanceLiterals_iff hlen hnodup hG hp hk
  rw [List.filter_congr hpred, List.filter_beq]
  have hcount : (List.range 9).count (G p - 1) = 1 :=
    List.count_eq_one_of_mem (List.nodup_range 9)
      (List.mem_range.mpr (by have := hG p; omega))
  rw [hcount]
  simp only [List.replicate, List.map_cons]
  have := hG p
  omega

/-- Witness for `instance_result_roundtrip`: the identity shuffle
`[1, ..., 729]` and a board holding a single 5 at the top-left cell. -/
theorem instance_result_roundtrip_witness :
    ((List.range' 1 729).length = 729 ∧ (List.range' 1 729).Nodup ∧
      (∀ v ∈ List.range' 1 729, 1 ≤ v ∧ v ≤ 729) ∧
      (∀ p : Fin 9 × Fin 9,
        (if p.1.val = 0 ∧ p.2.val = 0 then 5 else 0) ≤ 9)) ∧
    (∀ p : Fin 9 × Fin 9,
      (fun p : Fin 9 × Fin 9 => if p.1.val = 0 ∧ p.2.val = 0 then 5 else 0) p ≠ 0 →
      translate_sat_result (List.range' 1 729)
        ((instanceLiterals (List.range' 1 729)
          (fun p : Fin 9 × Fin 9 => if p.1.val = 0 ∧ p.2.val = 0 then 5 else 0)).map
            fun n : ℕ => (n : ℤ)) p =
        (fun p : Fin 9 × Fin 9 => if p.1.val = 0 ∧ p.2.val = 0 then 5 else 0) p) :=
  ⟨⟨by simp, List.nodup_range' 1 729,
    by intro v hv; rw [List.mem_range'_1] at hv; omega,
    by intro p; split <;> omega⟩,
    instance_result_roundtrip (List.range' 1 729)
      (fun p : Fin 9 × Fin 9 => if p.1.val = 0 ∧ p.2.val = 0 then 5 else 0)
      (by simp) (List.nodup_range' 1 729)
      (by intro v hv; rw [List.mem_range'_1] at hv; omega)
      (by intro p; dsimp only; split <;> omega)⟩

/-! ### Minimizer loop invariant and solution uniqueness -/

/-- By the satisfiability contract, `sat` only depends on which literals
appear among the assumptions, not on their order or multiplicity. -/
theorem sat_mem_congr {sat : List ℕ → Bool}
    {valid : NatMat → Prop} {models : NatMat → ℕ → Prop} {fullB : NatMat}
    (hsat : ∀ as, sat as = true ↔
      ∃ b, valid b ∧ b ≠ fullB ∧ ∀ l ∈ as, models b l)
    {as as' : List ℕ} (h : ∀ l, l ∈ as ↔ l ∈ as') :
    sat as = sat as' := by
  rw [Bool.eq_iff_iff, hsat, hsat]
  constructor
  · rintro ⟨b, hv, hne, hm⟩
    exact ⟨b, hv, hne, fun l hl => hm l ((h l).mpr hl)⟩
  · rintro ⟨b, hv, hne, hm⟩
    exact ⟨b, hv, hne, fun l hl => hm l ((h l).mp hl)⟩

/-- Invariant of the minimizer loop: if the kept clues plus the untested
clues are jointly unsatisfiable (no alternate solution), the loop
preserves that, and it only ever returns clues it was given. -/
theorem minimizerLoop_spec {sat : List ℕ → Bool} {core : List ℕ → List ℕ}
    {valid : NatMat → Prop} {models : NatMat → ℕ → Prop} {fullB : NatMat}
    (hsat : ∀ as, sat as = true ↔
      ∃ b, valid b ∧ b ≠ fullB ∧ ∀ l ∈ as, models b l)
    (hcore : ∀ as, sat as = false →
      (∀ l ∈ core as, l ∈ as) ∧ sat (core as) = false) :
    ∀ (n : ℕ) (untested result : List ℕ), untested.length ≤ n →
      sat (result ++ untested) = false →
      sat (minimizerLoop sat core untested result) = false ∧
      ∀ l ∈ minimizerLoop sat core untested result, l ∈ result ++ untested := by
  intro n
  induction n with
  | zero =>
    intro untested result hlen hinv
    have hu : untested = [] := List.length_eq_zero.mp (Nat.le_zero.mp hlen)
    subst hu
    simp only [minimizerLoop]
    simp only [List.append_nil] at hinv
    exact ⟨hinv, fun l hl => by simp [hl]⟩
  | succ n ih =>
    intro untested result hlen hinv
    cases untested with
    | nil =>
      simp only [minimizerLoop]
      simp only [List.append_nil] at hinv
      exact ⟨hinv, fun l hl => by simp [hl]⟩
    | cons u us =>
      simp only [minimizerLoop]
      have hsplit : (u :: us).dropLast ++ [(u :: us).getLast (List.cons_ne_nil u us)]
          = u :: us := List.dropLast_append_getLast _
      have hrlen : (u :: us).dropLast.length = us.length := by
        simp [List.length_dropLast]
      by_cases hs : sat (result ++ (u :: us).dropLast) = true
      · rw [if_pos hs]
        have hmemiff : ∀ l,
            l ∈ (result ++ [(u :: us).getLast (List.cons_ne_nil u us)])
              ++ (u :: us).dropLast ↔
            l ∈ result ++ (u :: us) := by
          intro l
          conv_rhs => rw [← hsplit]
          simp only [List.mem_append, List.mem_singleton]
          tauto
        have hinv' : sat ((result ++ [(u :: us).getLast (List.cons_ne_nil u us)])
            ++ (u :: us).dropLast) = false := by
          rw [sat_mem_congr hsat hmemiff]
          exact hinv
        have hrec := ih (u :: us).dropLast
          (result ++ [(u :: us).getLast (List.cons_ne_nil u us)])
          (by simp only [List.length_cons] at hlen; omega) hinv'
        refine ⟨hrec.1, fun l hl => ?_⟩
        exact (hmemiff l).mp (hrec.2 l hl)
      · rw [if_neg hs]
        have hsfalse : sat (result ++ (u :: us).dropLast) = false := by
          cases hval : sat (result ++ (u :: us).dropLast)
          · rfl
          · exact absurd hval hs
        obtain ⟨hcsub, hcunsat⟩ := hcore _ hsfalse
        have hinv' : sat (result ++ (u :: us).dropLast.filter
            (fun l => l ∈ core (result ++ (u :: us).dropLast))) = false := by
          cases hval : sat (result ++ (u :: us).dropLast.filter
              (fun l => l ∈ core (result ++ (u :: us).dropLast)))
          · rfl
          · exfalso
            obtain ⟨b, hv, hne, hm⟩ := (hsat _).mp hval
            have hmcore : ∀ l ∈ core (result ++ (u :: us).dropLast),
                models b l := by
              intro l hlc
              have hlm := hcsub l hlc
              rw [List.mem_append] at hlm
              rcases hlm with hlr | hlrest
              · exact hm l (by simp [List.mem_append, hlr])
              · have hfl : l ∈ (u :: us).dropLast.filter
                    (fun l => l ∈ core (result ++ (u :: us).dropLast)) := by
                  rw [List.mem_filter]
                  exact ⟨hlrest, by simpa using hlc⟩
                exact hm l (by simp [List.mem_append, hfl])
            have hctrue : sat (core (result ++ (u :: us).dropLast)) = true :=
              (hsat _).mpr ⟨b, hv, hne, hmcore⟩
            rw [hctrue] at hcunsat
            exact Bool.noConfusion hcunsat
        have hfltlen : ((u :: us).dropLast.filter
            (fun l => l ∈ core (result ++ (u :: us).dropLast))).length ≤ n := by
          have h1 := List.length_filter_le
            (fun l => decide (l ∈ core (result ++ (u :: us).dropLast)))
            (u :: us).dropLast
          simp only [List.length_cons] at hlen
          omega
        have hrec := ih _ result hfltlen hinv'
        refine ⟨hrec.1, fun l hl => ?_⟩
        have hm := hrec.2 l hl
        rw [List.mem_append] at hm ⊢
        rcases hm with hm | hm
        · exact Or.inl hm
        · right
          rw [List.mem_filter] at hm
          have hrest : l ∈ (u :: us).dropLast ++
              [(u :: us).getLast (List.cons_ne_nil u us)] :=
            List.mem_append.mpr (Or.inl hm.1)
          rwa [hsplit] at hrest

/-- **C4.** Under the SAT oracle's contract (`sat as` holds exactly when
some valid board other than the full one satisfies all assumption
literals `as`; an unsat core is a subset of the assumptions that is still
unsatisfiable), the clue set `Minimizer.resolve` returns — and any
superset of it drawn from the full board, as `_adapt_to_difficulty`
builds — admits exactly one valid solution: the full board produced in
step 1 (workers.py lines 139-188, generator.py lines 106-118). -/
theorem minimizer_unique_solution
    (sat : List ℕ → Bool) (core : List ℕ → List ℕ)
    (valid : NatMat → Prop) (models : NatMat → ℕ → Prop)
    (fullB : NatMat) (clues : List ℕ)
    (hsat : ∀ as, sat as = true ↔
      ∃ b, valid b ∧ b ≠ fullB ∧ ∀ l ∈ as, models b l)
    (hcore : ∀ as, sat as = false →
      (∀ l ∈ core as, l ∈ as) ∧ sat (core as) = false)
    (hinit : sat clues = false)
    (hfullv : valid fullB)
    (hfullm : ∀ l ∈ clues, models fullB l) :
    (∀ l ∈ minimizerResolve sat core clues, l ∈ clues) ∧
    (∀ l ∈ minimizerResolve sat core clues, models fullB l) ∧
    (∀ b, valid b → (∀ l ∈ minimizerResolve sat core clues, models b l) →
      b = fullB) ∧
    (∀ R2 : List ℕ,
      (∀ l ∈ minimizerResolve sat core clues, l ∈ R2) →
      (∀ l ∈ R2, models fullB l) →
      (valid fullB ∧ ∀ l ∈ R2, models fullB l) ∧
      ∀ b, valid b → (∀ l ∈ R2, models b l) → b = fullB) := by
  obtain ⟨hRfalse, hRsub'⟩ :=
    minimizerLoop_spec hsat hcore clues.length clues [] le_rfl hinit
  have hRsub : ∀ l ∈ minimizerResolve sat core clues, l ∈ clues := by
    intro l hl
    simpa using hRsub' l hl
  have hRmodels : ∀ l ∈ minimizerResolve sat core clues, models fullB l :=
    fun l hl => hfullm l (hRsub l hl)
  have huniq : ∀ b, valid b →
      (∀ l ∈ minimizerResolve sat core clues, models b l) → b = fullB := by
    intro b hv hm
    by_contra hne
    have htrue : sat (minimizerResolve sat core clues) = true :=
      (hsat _).mpr ⟨b, hv, hne, hm⟩
    have hRfalse' : sat (minimizerResolve sat core clues) = false := hRfalse
    rw [htrue] at hRfalse'
    exact Bool.noConfusion hRfalse'
  refine ⟨hRsub, hRmodels, huniq, ?_⟩
  intro R2 hsub2 hm2
  exact ⟨⟨hfullv, hm2⟩, fun b hv hm => huniq b hv fun l hl => hm l (hsub2 l hl)⟩

/-- Witness for `minimizer_unique_solution`: the toy two-board universe,
whose oracle answers are checked by hand, with the single clue list
`[1]`. -/
theorem minimizer_unique_solution_witness :
    ((∀ as, toySat as = true ↔
        ∃ b, toyValid b ∧ b ≠ toyFull ∧ ∀ l ∈ as, toyModels b l) ∧
      (∀ as, toySat as = false →
        (∀ l ∈ toyCore as, l ∈ as) ∧ toySat (toyCore as) = false) ∧
      toySat [1] = false ∧ toyValid toyFull ∧
      (∀ l ∈ ([1] : List ℕ), toyModels toyFull l)) ∧
    ((∀ l ∈ minimizerResolve toySat toyCore [1], l ∈ ([1] : List ℕ)) ∧
      (∀ l ∈ minimizerResolve toySat toyCore [1], toyModels toyFull l) ∧
      (∀ b, toyValid b →
        (∀ l ∈ minimizerResolve toySat toyCore [1], toyModels b l) →
        b = toyFull) ∧
      (∀ R2 : List ℕ,
        (∀ l ∈ minimizerResolve toySat toyCore [1], l ∈ R2) →
        (∀ l ∈ R2, toyModels toyFull l) →
        (toyValid toyFull ∧ ∀ l ∈ R2, toyModels toyFull l) ∧
        ∀ b, toyValid b → (∀ l ∈ R2, toyModels b l) → b = toyFull)) := by
  have hfg : toyFull ≠ toyAlt := by
    intro h
    have hpt := congrFun h (⟨0, by omega⟩, ⟨0, by omega⟩)
    simp [toyFull, toyAlt] at hpt
  have hsat : ∀ as, toySat as = true ↔
      ∃ b, toyValid b ∧ b ≠ toyFull ∧ ∀ l ∈ as, toyModels b l := by
    intro as
    constructor
    · intro hall
      refine ⟨toyAlt, Or.inr rfl, fun h => hfg h.symm, ?_⟩
      intro l hl
      have hl2 := List.all_eq_true.mp hall l hl
      right
      exact ⟨by simpa using hl2, rfl⟩
    · rintro ⟨b, hv, hne, hm⟩
      rcases hv with rfl | rfl
      · exact absurd rfl hne
      · show (as.all fun l => l == 2) = true
        rw [List.all_eq_true]
        intro l hl
        rcases hm l hl with ⟨_, hb⟩ | ⟨h2, _⟩
        · exact absurd hb.symm hfg
        · simpa using h2
  have hcore : ∀ as, toySat as = false →
      (∀ l ∈ toyCore as, l ∈ as) ∧ toySat (toyCore as) = false :=
    fun as h => ⟨fun l hl => hl, h⟩
  have hinit : toySat [1] = false := rfl
  have hfullv : toyValid toyFull := Or.inl rfl
  have hfullm : ∀ l ∈ ([1] : List ℕ), toyModels toyFull l := by
    intro l hl
    simp only [List.mem_singleton] at hl
    subst hl
    exact Or.inl ⟨rfl, rfl⟩
  exact ⟨⟨hsat, hcore, hinit, hfullv, hfullm⟩,
    minimizer_unique_solution toySat toyCore toyValid toyModels toyFull [1]
      hsat hcore hinit hfullv hfullm⟩

/-! ### Backtracking fill: basic facts -/

theorem firstEmpty_eq_none_iff {b : NatMat} :
    firstEmpty b = none ↔ complete b := by
  unfold firstEmpty complete
  rw [List.find?_eq_none]
  constructor
  · intro h p
    have := h p (mem_rowMajorIdx p)
    simpa using this
  · intro h p _
    simpa using h p

theorem firstEmpty_some_empty {b : NatMat} {p : Fin 9 × Fin 9}
    (h : firstEmpty b = some p) : b p = 0 := by
  have := List.find?_some h
  simpa using this

theorem firstEmpty_isSome_of_empty {b : NatMat} {p : Fin 9 × Fin 9}
    (h : b p = 0) : ∃ q, firstEmpty b = some q := by
  cases hf : firstEmpty b with
  | some q => exact ⟨q, rfl⟩
  | none => exact absurd h (firstEmpty_eq_none_iff.mp hf p)

theorem filter_isEmpty_iff_complete {b : NatMat} :
    (rowMajorIdx.filter fun q => b q = 0).isEmpty = true ↔ complete b := by
  rw [List.isEmpty_iff, List.filter_eq_nil_iff]
  constructor
  · intro h p
    have := h p (mem_rowMajorIdx p)
    simpa using this
  · intro h p _
    simpa using h p

theorem emptyCount_eq_zero_iff {b : NatMat} :
    emptyCount b = 0 ↔ complete b := by
  unfold emptyCount complete
  rw [Finset.card_eq_zero, Finset.filter_eq_empty_iff]
  constructor
  · intro h p
    have := h (Finset.mem_univ p)
    simpa using this
  · intro h p _
    simpa using h p

theorem emptyCount_pos_of_empty {b : NatMat} {p : Fin 9 × Fin 9}
    (h : b p = 0) : 1 ≤ emptyCount b := by
  unfold emptyCount
  have : p ∈ Finset.univ.filter fun q : Fin 9 × Fin 9 => b q = 0 := by
    simp [h]
  exact Finset.card_pos.mpr ⟨p, this⟩

/-- Filling an empty cell decreases the empty count by one. -/
theorem emptyCount_update_fill {b : NatMat} {p : Fin 9 × Fin 9} {v : ℕ}
    (hp : b p = 0) (hv : v ≠ 0) :
    emptyCount (Function.update b p v) + 1 = emptyCount b := by
  unfold emptyCount
  have hset : (Finset.univ.filter fun q : Fin 9 × Fin 9 => b q = 0)
      = insert p (Finset.univ.filter fun q : Fin 9 × Fin 9 =>
          Function.update b p v q = 0) := by
    ext q
    by_cases hq : q = p
    · subst hq
      simp [hp, Function.update_same, hv]
    · simp [Function.update_noteq hq, hq]
  rw [hset, Finset.card_insert_of_not_mem]
  simp [Function.update_same, hv]

theorem sameGroup_refl (p : Fin 9 × Fin 9) : sameGroup p p := Or.inl rfl

theorem sameGroup_symm {p q : Fin 9 × Fin 9} (h : sameGroup p q) :
    sameGroup q p := by
  rcases h with h | h | h
  · exact Or.inl h.symm
  · exact Or.inr (Or.inl h.symm)
  · exact Or.inr (Or.inr h.symm)

/-- `is_cell_correct` accepts `v` exactly when no cell of the row, column
or square — the tested cell itself included — already holds `v`. -/
theorem is_cell_correct_iff (b : NatMat) (p : Fin 9 × Fin 9) (v : ℕ) :
    is_cell_correct b p v = true ↔ ∀ q, sameGroup p q → b q ≠ v := by
  unfold is_cell_correct
  have hrow : is_val_used_in_row b p.1 v = true ↔ ∃ q, p.1 = q.1 ∧ b q = v := by
    unfold is_val_used_in_row
    rw [List.any_eq_true]
    constructor
    · rintro ⟨j, _, hj⟩
      exact ⟨(p.1, j), rfl, by simpa using hj⟩
    · rintro ⟨q, hq1, hq2⟩
      refine ⟨q.2, List.mem_finRange q.2, ?_⟩
      have : (p.1, q.2) = q := by
        rw [hq1]
      rw [this]
      simpa using hq2
  have hcol : is_val_used_in_column b p.2 v = true ↔
      ∃ q, p.2 = q.2 ∧ b q = v := by
    unfold is_val_used_in_column
    rw [List.any_eq_true]
    constructor
    · rintro ⟨i, _, hi⟩
      exact ⟨(i, p.2), rfl, by simpa using hi⟩
    · rintro ⟨q, hq1, hq2⟩
      refine ⟨q.1, List.mem_finRange q.1, ?_⟩
      have : (q.1, p.2) = q := by
        rw [hq1]
      rw [this]
      simpa using hq2
  have hsq : is_val_used_in_square b p v = true ↔
      ∃ q, coordSquare p = coordSquare q ∧ b q = v := by
    unfold is_val_used_in_square
    rw [List.any_eq_true]
    constructor
    · rintro ⟨q, hq, hv⟩
      rw [List.mem_filter] at hq
      refine ⟨q, ?_, by simpa using hv⟩
      have := hq.2
      simp only [beq_iff_eq] at this
      exact this.symm
    · rintro ⟨q, hq1, hq2⟩
      refine ⟨q, ?_, by simpa using hq2⟩
      rw [List.mem_filter]
      exact ⟨mem_rowMajorIdx q, by simp [hq1.symm]⟩
  by_cases h1 : is_val_used_in_row b p.1 v = true
  · rw [if_pos h1]
    obtain ⟨q, hg, hbv⟩ := hrow.mp h1
    simp only [Bool.false_eq_true, false_iff, not_forall]
    push_neg
    exact ⟨q, Or.inl hg, hbv⟩
  · rw [if_neg h1]
    by_cases h2 : is_val_used_in_column b p.2 v = true
    · rw [if_pos h2]
      obtain ⟨q, hg, hbv⟩ := hcol.mp h2
      simp only [Bool.false_eq_true, false_iff, not_forall]
      push_neg
      exact ⟨q, Or.inr (Or.inl hg), hbv⟩
    · rw [if_neg h2]
      by_cases h3 : is_val_used_in_square b p v = true
      · rw [if_pos h3]
        obtain ⟨q, hg, hbv⟩ := hsq.mp h3
        simp only [Bool.false_eq_true, false_iff, not_forall]
        push_neg
        exact ⟨q, Or.inr (Or.inr hg), hbv⟩
      · rw [if_neg h3]
        simp only [true_iff]
        intro q hg hbv
        rcases hg with hg | hg | hg
        · exact h1 (hrow.mpr ⟨q, hg, hbv⟩)
        · exact h2 (hcol.mpr ⟨q, hg, hbv⟩)
        · exact h3 (hsq.mpr ⟨q, hg, hbv⟩)

/-- Placing a value that `is_cell_correct` accepts (on the board with the
target cell cleared) keeps the board repeat-free. -/
theorem noRepeats_update_of_ok {b0 : NatMat} {p : Fin 9 × Fin 9} {v : ℕ}
    (hnr : noRepeats b0)
    (hok : ∀ q, q ≠ p → sameGroup p q → b0 q ≠ v) :
    noRepeats (Function.update b0 p v) := by
  intro q r hne hsg hq0
  by_cases hqp : q = p
  · have hrp : r ≠ p := fun hh => hne (hqp.trans hh.symm)
    rw [hqp] at hsg hq0 ⊢
    rw [Function.update_same] at hq0 ⊢
    rw [Function.update_noteq hrp]
    exact fun h => hok r hrp hsg h.symm
  · rw [Function.update_noteq hqp] at hq0 ⊢
    by_cases hrp : r = p
    · rw [hrp, Function.update_same]
      intro h
      exact hok q hqp (sameGroup_symm (hrp ▸ hsg)) h
    · rw [Function.update_noteq hrp]
      exact hnr q r hne hsg hq0

/-! ### Backtracking fill: failure restores the board -/

/-- Restoration for the candidate loop, assuming it for the recursive
call: a failing `tryValues` hands back its board with the target cell
reset to 0 (the `self._board.rows[row][col].value = 0` line). -/
theorem tryValues_restore_of_fill (rand : ℕ → List ℕ) (fuel : ℕ)
    (hfill : ∀ b k p0 b2 k2, firstEmpty b = some p0 →
      fillBoard rand fuel b k = some (false, b2, k2) → b2 = b) :
    ∀ (vs : List ℕ) (p : Fin 9 × Fin 9) (b : NatMat) (k : ℕ)
      (b2 : NatMat) (k2 : ℕ),
      tryValues rand fuel p vs b k = some (false, b2, k2) →
      b2 = Function.update b p 0 := by
  intro vs
  induction vs with
  | nil =>
    intro p b k b2 k2 h
    simp only [tryValues, Option.some.injEq, Prod.mk.injEq, true_and] at h
    exact h.1.symm
  | cons v vs ih =>
    intro p b k b2 k2 h
    simp only [tryValues] at h
    by_cases hchk : is_cell_correct b p (v + 1) = true
    · rw [if_pos hchk] at h
      by_cases hcomp : (rowMajorIdx.filter
          fun q => Function.update b p (v + 1) q = 0).isEmpty = true
      · rw [if_pos hcomp] at h
        simp at h
      · rw [if_neg hcomp] at h
        cases hfb : fillBoard rand fuel (Function.update b p (v + 1)) k with
        | none =>
          rw [hfb] at h
          simp at h
        | some res =>
          obtain ⟨succ, b'', k'⟩ := res
          rw [hfb] at h
          cases succ
          · have hne : ∃ q, Function.update b p (v + 1) q = 0 := by
              by_contra hno
              push_neg at hno
              exact hcomp (filter_isEmpty_iff_complete.mpr hno)
            obtain ⟨q, hq⟩ := hne
            obtain ⟨p1, hp1⟩ := firstEmpty_isSome_of_empty hq
            have hrest := hfill _ _ _ _ _ hp1 hfb
            have hb2 := ih p b'' k' b2 k2 h
            rw [hb2, hrest, Function.update_idem]
          · simp at h
    · rw [if_neg hchk] at h
      exact ih p b k b2 k2 h

/-- Restoration for `_generate_full_board`: when the board it was handed
contained an empty cell, a failing call returns the board unchanged. -/
theorem fill_restore (rand : ℕ → List ℕ) :
    ∀ (fuel : ℕ) (b : NatMat) (k : ℕ) (p0 : Fin 9 × Fin 9)
      (b2 : NatMat) (k2 : ℕ), firstEmpty b = some p0 →
      fillBoard rand fuel b k = some (false, b2, k2) → b2 = b := by
  intro fuel
  induction fuel with
  | zero =>
    intro b k p0 b2 k2 _ h
    simp [fillBoard] at h
  | succ n ih =>
    intro b k p0 b2 k2 hfe h
    simp only [fillBoard] at h
    rw [hfe] at h
    have hrec := tryValues_restore_of_fill rand n
      (fun b k p0 b2 k2 => ih b k p0 b2 k2) (rand k) p0 b (k + 1) b2 k2 h
    have hp0 : b p0 = 0 := firstEmpty_some_empty hfe
    calc b2 = Function.update b p0 0 := hrec
      _ = Function.update b p0 (b p0) := by rw [hp0]
      _ = b := Function.update_eq_self p0 b

/-! ### Backtracking fill: enough fuel means no fuel exhaustion -/

/-- With fuel at least the number of empty cells of the cleared board,
the candidate loop never runs out of fuel. -/
theorem tryValues_nonone_of_fill (rand : ℕ → List ℕ) (fuel : ℕ)
    (hfillN : ∀ b k, emptyCount b < fuel → fillBoard rand fuel b k ≠ none) :
    ∀ (vs : List ℕ) (p : Fin 9 × Fin 9) (b : NatMat) (k : ℕ),
      emptyCount (Function.update b p 0) ≤ fuel →
      tryValues rand fuel p vs b k ≠ none := by
  intro vs
  induction vs with
  | nil =>
    intro p b k _ h
    simp [tryValues] at h
  | cons v vs ih =>
    intro p b k hfuel h
    simp only [tryValues] at h
    by_cases hchk : is_cell_correct b p (v + 1) = true
    · rw [if_pos hchk] at h
      by_cases hcomp : (rowMajorIdx.filter
          fun q => Function.update b p (v + 1) q = 0).isEmpty = true
      · rw [if_pos hcomp] at h
        simp at h
      · rw [if_neg hcomp] at h
        have hupd : Function.update b p (v + 1)
            = Function.update (Function.update b p 0) p (v + 1) :=
          (Function.update_idem ..).symm
        have hcnt : emptyCount (Function.update b p (v + 1)) + 1
            = emptyCount (Function.update b p 0) := by
          rw [hupd]
          exact emptyCount_update_fill (Function.update_same ..) (by omega)
        have hlt : emptyCount (Function.update b p (v + 1)) < fuel := by omega
        cases hfb : fillBoard rand fuel (Function.update b p (v + 1)) k with
        | none => exact hfillN _ _ hlt hfb
        | some res =>
          obtain ⟨succ, b'', k'⟩ := res
          rw [hfb] at h
          cases succ
          · have hne : ∃ q, Function.update b p (v + 1) q = 0 := by
              by_contra hno
              push_neg at hno
              exact hcomp (filter_isEmpty_iff_complete.mpr hno)
            obtain ⟨q, hq⟩ := hne
            obtain ⟨p1, hp1⟩ := firstEmpty_isSome_of_empty hq
            have hrest := fill_restore rand fuel _ _ _ _ _ hp1 hfb
            refine ih p b'' k' ?_ h
            rw [hrest, Function.update_idem]
            exact hfuel
          · simp at h
    · rw [if_neg hchk] at h
      exact ih p b k hfuel h

/-- `_generate_full_board` never exhausts fuel exceeding the number of
empty cells: the recursion depth is bounded by the cells it fills. -/
theorem fill_nonone (rand : ℕ → List ℕ) :
    ∀ (fuel : ℕ) (b : NatMat) (k : ℕ), emptyCount b < fuel →
      fillBoard rand fuel b k ≠ none := by
  intro fuel
  induction fuel with
  | zero =>
    intro b k hcnt
    exact absurd hcnt (Nat.not_lt_zero _)
  | succ n ih =>
    intro b k hcnt h
    simp only [fillBoard] at h
    cases hfe : firstEmpty b with
    | none =>
      rw [hfe] at h
      simp at h
    | some p =>
      rw [hfe] at h
      have hp := firstEmpty_some_empty hfe
      have hself : Function.update b p 0 = b := by
        rw [← hp]
        exact Function.update_eq_self p b
      refine tryValues_nonone_of_fill rand n ih (rand k) p b (k + 1) ?_ h
      rw [hself]
      omega

/-! ### Backtracking fill: success yields a valid completed board -/

/-- Soundness for the candidate loop: a successful run completes the
board, keeps it repeat-free and within range, and preserves every filled
cell of the cleared board. -/
theorem tryValues_sound_of_fill (rand : ℕ → List ℕ) (fuel : ℕ)
    (hfillS : ∀ b k b2 k2, noRepeats b → subRange b →
      fillBoard rand fuel b k = some (true, b2, k2) →
      complete b2 ∧ noRepeats b2 ∧ subRange b2 ∧ extendsB b b2) :
    ∀ (vs : List ℕ) (p : Fin 9 × Fin 9) (b : NatMat) (k : ℕ)
      (b2 : NatMat) (k2 : ℕ),
      noRepeats (Function.update b p 0) → subRange (Function.update b p 0) →
      (∀ v ∈ vs, v < 9) →
      tryValues rand fuel p vs b k = some (true, b2, k2) →
      complete b2 ∧ noRepeats b2 ∧ subRange b2 ∧
        extendsB (Function.update b p 0) b2 := by
  intro vs
  induction vs with
  | nil =>
    intro p b k b2 k2 _ _ _ h
    simp [tryValues] at h
  | cons v vs ih =>
    intro p b k b2 k2 hnr hsr hvs h
    simp only [tryValues] at h
    by_cases hchk : is_cell_correct b p (v + 1) = true
    · rw [if_pos hchk] at h
      have hok : ∀ q, q ≠ p → sameGroup p q →
          Function.update b p 0 q ≠ v + 1 := by
        intro q hqp hsg
        have hc := (is_cell_correct_iff b p (v + 1)).mp hchk q hsg
        rw [Function.update_noteq hqp]
        exact hc
      have hupd : Function.update b p (v + 1)
          = Function.update (Function.update b p 0) p (v + 1) :=
        (Function.update_idem ..).symm
      have hnr' : noRepeats (Function.update b p (v + 1)) := by
        rw [hupd]
        exact noRepeats_update_of_ok hnr hok
      have hsr' : subRange (Function.update b p (v + 1)) := by
        intro q
        by_cases hq : q = p
        · rw [hq, Function.update_same]
          have := hvs v (by simp)
          omega
        · rw [Function.update_noteq hq]
          have hh := hsr q
          rwa [Function.update_noteq hq] at hh
      have hext' : extendsB (Function.update b p 0)
          (Function.update b p (v + 1)) := by
        intro q hq
        have hqp : q ≠ p := by
          intro hh
          rw [hh, Function.update_same] at hq
          exact hq rfl
        simp only [Function.update_noteq hqp]
      by_cases hcomp : (rowMajorIdx.filter
          fun q => Function.update b p (v + 1) q = 0).isEmpty = true
      · rw [if_pos hcomp] at h
        simp only [Option.some.injEq, Prod.mk.injEq, true_and] at h
        obtain ⟨hb2, _⟩ := h
        subst hb2
        exact ⟨filter_isEmpty_iff_complete.mp hcomp, hnr', hsr', hext'⟩
      · rw [if_neg hcomp] at h
        cases hfb : fillBoard rand fuel (Function.update b p (v + 1)) k with
        | none =>
          rw [hfb] at h
          simp at h
        | some res =>
          obtain ⟨succ, b'', k'⟩ := res
          rw [hfb] at h
          cases succ
          · have hne : ∃ q, Function.update b p (v + 1) q = 0 := by
              by_contra hno
              push_neg at hno
              exact hcomp (filter_isEmpty_iff_complete.mpr hno)
            obtain ⟨q, hq⟩ := hne
            obtain ⟨p1, hp1⟩ := firstEmpty_isSome_of_empty hq
            have hrest := fill_restore rand fuel _ _ _ _ _ hp1 hfb
            have hih := ih p b'' k' b2 k2
              (by rw [hrest, Function.update_idem]; exact hnr)
              (by rw [hrest, Function.update_idem]; exact hsr)
              (fun w hw => hvs w (by simp [hw])) h
            refine ⟨hih.1, hih.2.1, hih.2.2.1, ?_⟩
            have hh := hih.2.2.2
            rwa [hrest, Function.update_idem] at hh
          · simp only [Option.some.injEq, Prod.mk.injEq, true_and] at h
            obtain ⟨hb2, _⟩ := h
            subst hb2
            have hfs := hfillS _ _ _ _ hnr' hsr' hfb
            refine ⟨hfs.1, hfs.2.1, hfs.2.2.1, ?_⟩
            intro q hq
            have hqp : q ≠ p := by
              intro hh
              rw [hh, Function.update_same] at hq
              exact hq rfl
            have h1 : Function.update b p (v + 1) q ≠ 0 := by
              rw [Function.update_noteq hqp]
              rw [Function.update_noteq hqp] at hq
              exact hq
            have h2 := hfs.2.2.2 q h1
            rw [h2]
            simp only [Function.update_noteq hqp]
    · rw [if_neg hchk] at h
      exact ih p b k b2 k2 hnr hsr (fun w hw => hvs w (by simp [hw])) h

/-- Soundness of `_generate_full_board`: a successful call on a
repeat-free in-range board returns a complete, repeat-free, in-range
board extending it. -/
theorem fill_sound (rand : ℕ → List ℕ)
    (hr9 : ∀ n, ∀ v ∈ rand n, v < 9) :
    ∀ (fuel : ℕ) (b : NatMat) (k : ℕ) (b2 : NatMat) (k2 : ℕ),
      noRepeats b → subRange b →
      fillBoard rand fuel b k = some (true, b2, k2) →
      complete b2 ∧ noRepeats b2 ∧ subRange b2 ∧ extendsB b b2 := by
  intro fuel
  induction fuel with
  | zero =>
    intro b k b2 k2 _ _ h
    simp [fillBoard] at h
  | succ n ih =>
    intro b k b2 k2 hnr hsr h
    simp only [fillBoard] at h
    cases hfe : firstEmpty b with
    | none =>
      rw [hfe] at h
      simp at h
    | some p =>
      rw [hfe] at h
      have hp := firstEmpty_some_empty hfe
      have hself : Function.update b p 0 = b := by
        rw [← hp]
        exact Function.update_eq_self p b
      have hres := tryValues_sound_of_fill rand n ih (rand k) p b (k + 1) b2 k2
        (by rw [hself]; exact hnr) (by rw [hself]; exact hsr)
        (fun v hv => hr9 k v hv) h
      refine ⟨hres.1, hres.2.1, hres.2.2.1, ?_⟩
      have hh := hres.2.2.2
      rwa [hself] at hh

/-! ### Backtracking fill: a completable board is completed -/

/-- Completeness for the candidate loop: when the cleared board admits a
completion `c`, the stale value at the target cell differs from `c`'s
value there, and that value's candidate is still among the remaining
ones, the loop succeeds. -/
theorem tryValues_complete_of_fill (rand : ℕ → List ℕ) (fuel : ℕ)
    (hfillC : ∀ b k, noRepeats b → subRange b → completable b →
      emptyCount b < fuel → (∃ p, b p = 0) →
      ∃ b2 k2, fillBoard rand fuel b k = some (true, b2, k2)) :
    ∀ (vs : List ℕ) (p : Fin 9 × Fin 9) (b : NatMat) (k : ℕ) (c : NatMat),
      noRepeats (Function.update b p 0) → subRange (Function.update b p 0) →
      extendsB (Function.update b p 0) c → complete c → subRange c →
      noRepeats c →
      (c p - 1) ∈ vs → b p ≠ c p →
      emptyCount (Function.update b p 0) ≤ fuel →
      ∃ b2 k2, tryValues rand fuel p vs b k = some (true, b2, k2) := by
  intro vs
  induction vs with
  | nil =>
    intro p b k c _ _ _ _ _ _ hmem _ _
    simp at hmem
  | cons v vs ih =>
    intro p b k c hnr hsr hext hc hcr hcnr hmem hstale hfuel
    have hw1 : 1 ≤ c p := Nat.one_le_iff_ne_zero.mpr (hc p)
    have hw9 : c p ≤ 9 := hcr p
    simp only [tryValues]
    by_cases hchk : is_cell_correct b p (v + 1) = true
    · rw [if_pos hchk]
      have hupd : Function.update b p (v + 1)
          = Function.update (Function.update b p 0) p (v + 1) :=
        (Function.update_idem ..).symm
      have hcnt : emptyCount (Function.update b p (v + 1)) < fuel := by
        have hone : emptyCount (Function.update b p (v + 1)) + 1
            = emptyCount (Function.update b p 0) := by
          rw [hupd]
          exact emptyCount_update_fill (Function.update_same ..) (by omega)
        omega
      by_cases hcomp : (rowMajorIdx.filter
          fun q => Function.update b p (v + 1) q = 0).isEmpty = true
      · rw [if_pos hcomp]
        exact ⟨Function.update b p (v + 1), k, rfl⟩
      · rw [if_neg hcomp]
        have hempty' : ∃ q, Function.update b p (v + 1) q = 0 := by
          by_contra hno
          push_neg at hno
          exact hcomp (filter_isEmpty_iff_complete.mpr hno)
        by_cases hv : v + 1 = c p
        · have hok : ∀ q, q ≠ p → sameGroup p q →
              Function.update b p 0 q ≠ v + 1 := by
            intro q hqp hsg
            have hcq := (is_cell_correct_iff b p (v + 1)).mp hchk q hsg
            rw [Function.update_noteq hqp]
            exact hcq
          have hnr' : noRepeats (Function.update b p (v + 1)) := by
            rw [hupd]
            exact noRepeats_update_of_ok hnr hok
          have hsr' : subRange (Function.update b p (v + 1)) := by
            intro q
            by_cases hq : q = p
            · rw [hq, Function.update_same]
              omega
            · rw [Function.update_noteq hq]
              have hh := hsr q
              rwa [Function.update_noteq hq] at hh
          have hcompl' : completable (Function.update b p (v + 1)) := by
            refine ⟨c, ?_, hc, hcr, hcnr⟩
            intro q hq
            by_cases hqp : q = p
            · rw [hqp, Function.update_same, hv]
            · rw [Function.update_noteq hqp]
              have hq' : Function.update b p 0 q ≠ 0 := by
                rw [Function.update_noteq hqp]
                rwa [Function.update_noteq hqp] at hq
              have := hext q hq'
              rwa [Function.update_noteq hqp] at this
          obtain ⟨b2, k2, hfb⟩ := hfillC (Function.update b p (v + 1)) k
            hnr' hsr' hcompl' hcnt hempty'
          rw [hfb]
          exact ⟨b2, k2, rfl⟩
        · cases hfb : fillBoard rand fuel (Function.update b p (v + 1)) k with
          | none => exact absurd hfb (fill_nonone rand fuel _ _ hcnt)
          | some res =>
            obtain ⟨succ, b'', k'⟩ := res
            cases succ
            · obtain ⟨q, hq⟩ := hempty'
              obtain ⟨p1, hp1⟩ := firstEmpty_isSome_of_empty hq
              have hrest := fill_restore rand fuel _ _ _ _ _ hp1 hfb
              have hmem' : c p - 1 ∈ vs := by
                rcases List.mem_cons.mp hmem with hh | hh
                · exact absurd (by omega : v + 1 = c p) hv
                · exact hh
              have hih := ih p b'' k' c
                (by rw [hrest, Function.update_idem]; exact hnr)
                (by rw [hrest, Function.update_idem]; exact hsr)
                (by rw [hrest, Function.update_idem]; exact hext)
                hc hcr hcnr hmem'
                (by rw [hrest, Function.update_same]; exact hv)
                (by rw [hrest, Function.update_idem]; exact hfuel)
              exact hih
            · exact ⟨b'', k', rfl⟩
    · rw [if_neg hchk]
      have hv : v + 1 ≠ c p := by
        intro hv
        apply hchk
        rw [is_cell_correct_iff]
        intro q hsg
        by_cases hqp : q = p
        · rw [hqp, hv]
          exact hstale
        · have hbq : b q = Function.update b p 0 q :=
            (Function.update_noteq hqp ..).symm
          rw [hbq]
          intro hq
          have hq0 : Function.update b p 0 q ≠ 0 := by
            rw [hq]
            omega
          have hcq : c q = c p := by
            rw [hext q hq0, hq, hv]
          exact hcnr q p (fun hh => hqp hh) (sameGroup_symm hsg) (hc q) hcq
      have hmem' : c p - 1 ∈ vs := by
        rcases List.mem_cons.mp hmem with hh | hh
        · exact absurd (by omega : v + 1 = c p) hv
        · exact hh
      exact ih p b k c hnr hsr hext hc hcr hcnr hmem' hstale hfuel

/-- Completeness of `_generate_full_board`: on a repeat-free, in-range,
completable board with an empty cell and enough fuel, the search
succeeds. -/
theorem fill_complete (rand : ℕ → List ℕ)
    (hrand : ∀ n, (rand n).Perm (List.range 9)) :
    ∀ (fuel : ℕ) (b : NatMat) (k : ℕ), noRepeats b → subRange b →
      completable b → emptyCount b < fuel → (∃ p, b p = 0) →
      ∃ b2 k2, fillBoard rand fuel b k = some (true, b2, k2) := by
  intro fuel
  induction fuel with
  | zero =>
    intro b k _ _ _ hcnt _
    exact absurd hcnt (Nat.not_lt_zero _)
  | succ n ih =>
    intro b k hnr hsr hcompl hcnt hempty
    obtain ⟨p0, hp0⟩ := hempty
    obtain ⟨p, hfe⟩ := firstEmpty_isSome_of_empty hp0
    simp only [fillBoard]
    rw [hfe]
    have hp := firstEmpty_some_empty hfe
    have hself : Function.update b p 0 = b := by
      rw [← hp]
      exact Function.update_eq_self p b
    obtain ⟨c, hext, hc, hcr, hcnr⟩ := hcompl
    have hmem : c p - 1 ∈ rand k := by
      have h1 : 1 ≤ c p := Nat.one_le_iff_ne_zero.mpr (hc p)
      have h9 : c p ≤ 9 := hcr p
      rw [(hrand k).mem_iff, List.mem_range]
      omega
    refine tryValues_complete_of_fill rand n ih (rand k) p b (k + 1) c
      (by rw [hself]; exact hnr) (by rw [hself]; exact hsr)
      (by rw [hself]; exact hext) hc hcr hcnr hmem ?_ ?_
    · have h1 : 1 ≤ c p := Nat.one_le_iff_ne_zero.mpr (hc p)
      rw [hp]
      omega
    · rw [hself]
      omega

set_option maxRecDepth 40000 in
/-- **C8.** Started on the empty board with any sequence of shuffled
candidate permutations, the backtracking fill terminates within its
depth bound and returns success with a board whose every cell holds a
value in `[1, 9]` and whose rows, columns and squares contain no repeated
value; the candidate loop, on exhaustion, resets the current cell to 0
and reports failure (generator.py lines 53-83). -/
theorem backtracking_fill_from_empty (rand : ℕ → List ℕ)
    (hrand : ∀ n, (rand n).Perm (List.range 9)) :
    (∃ b2 k2, fillBoard rand 82 (fun _ => 0) 0 = some (true, b2, k2) ∧
      (∀ p, 1 ≤ b2 p ∧ b2 p ≤ 9) ∧
      (∀ p q, p ≠ q → sameGroup p q → b2 p ≠ b2 q)) ∧
    (∀ fuel p b k, tryValues rand fuel p [] b k
      = some (false, Function.update b p 0, k)) := by
  have hr9 : ∀ n, ∀ v ∈ rand n, v < 9 := by
    intro n v hv
    have := (hrand n).mem_iff.mp hv
    rwa [List.mem_range] at this
  constructor
  · have hnr0 : noRepeats (fun _ => 0) := by
      intro p q _ _ h0
      exact absurd rfl h0
    have hsr0 : subRange (fun _ => 0) := fun _ => Nat.zero_le 9
    have hcanon : noRepeats (fun p : Fin 9 × Fin 9 =>
        (3 * p.1.val + p.1.val / 3 + p.2.val) % 9 + 1) := by
      unfold noRepeats sameGroup coordSquare
      decide
    have hcompl : completable (fun _ => 0) := by
      refine ⟨fun p : Fin 9 × Fin 9 =>
        (3 * p.1.val + p.1.val / 3 + p.2.val) % 9 + 1,
        fun p h => absurd rfl h, fun p => Nat.succ_ne_zero _, fun p => ?_,
        hcanon⟩
      show (3 * p.1.val + p.1.val / 3 + p.2.val) % 9 + 1 ≤ 9
      omega
    have hcnt : emptyCount (fun _ : Fin 9 × Fin 9 => (0 : ℕ)) < 82 := by
      have hle : emptyCount (fun _ : Fin 9 × Fin 9 => (0 : ℕ))
          ≤ (Finset.univ : Finset (Fin 9 × Fin 9)).card :=
        Finset.card_filter_le _ _
      have hcard : (Finset.univ : Finset (Fin 9 × Fin 9)).card = 81 := by
        simp [Finset.card_univ, Fintype.card_prod, Fintype.card_fin]
      omega
    have hempty : ∃ p : Fin 9 × Fin 9, (fun _ => (0 : ℕ)) p = 0 :=
      ⟨((0 : Fin 9), (0 : Fin 9)), rfl⟩
    obtain ⟨b2, k2, hfb⟩ := fill_complete rand hrand 82 (fun _ => 0) 0
      hnr0 hsr0 hcompl hcnt hempty
    obtain ⟨hc, hnr2, hsr2, _⟩ := fill_sound rand hr9 82 (fun _ => 0) 0 b2 k2
      hnr0 hsr0 hfb
    refine ⟨b2, k2, hfb, fun p => ?_, fun p q hne hsg => hnr2 p q hne hsg (hc p)⟩
    have h1 := hc p
    have h2 := hsr2 p
    omega
  · intro fuel p b k
    simp [tryValues]

/-- Witness for `backtracking_fill_from_empty`: the identity shuffle
sequence, always handing back `[0, ..., 8]`. -/
theorem backtracking_fill_from_empty_witness :
    (∀ n, ((fun _ : ℕ => List.range 9) n).Perm (List.range 9)) ∧
    ((∃ b2 k2, fillBoard (fun _ => List.range 9) 82 (fun _ => 0) 0
        = some (true, b2, k2) ∧
      (∀ p, 1 ≤ b2 p ∧ b2 p ≤ 9) ∧
      (∀ p q, p ≠ q → sameGroup p q → b2 p ≠ b2 q)) ∧
    (∀ fuel p b k, tryValues (fun _ => List.range 9) fuel p [] b k
      = some (false, Function.update b p 0, k))) :=
  ⟨fun _ => List.Perm.refl _,
    backtracking_fill_from_empty (fun _ => List.range 9)
      (fun _ => List.Perm.refl _)⟩

end PySudoku
